import Mathlib

/-!
Verification of the SuperTuxKart addon downloader (`addons.py`).

The development shallowly embeds the data model of the script:

* Python string-keyed dictionaries (insertion ordered, unique keys) become
  association lists `Assoc α := List (String × α)` with Python's semantics for
  `d[k] = v` (update in place, else append), `d.get`, `d.update`, `d.setdefault`.
* The remote catalog (`addons_dict`) and the installed ledger
  (`installed_addons`) are `Assoc Dict` values, where `Dict := Assoc String`
  holds the XML attributes of one addon, exactly as the script stores them
  (all attribute values are strings).
* Python `int(...)` on an attribute string is `pyInt?` (decimal with optional
  sign); a parse failure models the `ValueError` the script would raise, so
  fallible paths return `Option`.
* The filesystem visible to the validation code is a finite map from addon
  install paths to `dir`/`file` nodes; `shutil.rmtree` on a non-directory and
  `KeyError` on missing dictionary keys surface as error outcomes.
* XML serialization mechanics (`xml.etree.ElementTree`) are an external
  collaborator: documents are modelled structurally (`XDoc`), and the byte
  renderer is a fixed deterministic function of the document, with the
  script's custom attribute escaper (`_escape_stk_attributes`) modelled
  exactly.
-/

/-! ## Python-style ordered dictionaries as association lists -/

/-- A Python `dict` with `String` keys: insertion-ordered association list. -/
abbrev Assoc (α : Type) := List (String × α)

/-- `d.get(k)`: first binding of `k`, if any. -/
def aget? {α : Type} : Assoc α → String → Option α
  | [], _ => none
  | p :: rest, k => if p.1 = k then some p.2 else aget? rest k

/-- `d.get(k, v)`: lookup with default. -/
def agetD {α : Type} (d : Assoc α) (k : String) (v : α) : α := (aget? d k).getD v

/-- `d[k] = v`: replace the first binding of `k` in place, else append. -/
def aset {α : Type} : Assoc α → String → α → Assoc α
  | [], k, v => [(k, v)]
  | p :: rest, k, v => if p.1 = k then (k, v) :: rest else p :: aset rest k v

/-- `d.update(e)`: apply `d[k] = v` for each binding of `e` in order. -/
def aupdate {α : Type} (d e : Assoc α) : Assoc α := e.foldl (fun acc p => aset acc p.1 p.2) d

/-- The key sequence of a dictionary. -/
def akeys {α : Type} (d : Assoc α) : List String := d.map (·.1)

/-- An addon's attribute dictionary: attribute name ↦ string value. -/
abbrev Dict := Assoc String

@[simp] theorem aget?_nil {α : Type} (k : String) : aget? ([] : Assoc α) k = none := rfl

theorem aget?_cons {α : Type} (p : String × α) (rest : Assoc α) (k : String) :
    aget? (p :: rest) k = if p.1 = k then some p.2 else aget? rest k := rfl

@[simp] theorem aget?_aset_self {α : Type} (d : Assoc α) (k : String) (v : α) :
    aget? (aset d k v) k = some v := by
  induction d with
  | nil => simp [aset, aget?]
  | cons p rest ih =>
    by_cases h : p.1 = k <;> simp [aset, aget?, h, ih]

theorem aget?_aset_ne {α : Type} (d : Assoc α) {k k2 : String} (v : α) (h : k ≠ k2) :
    aget? (aset d k v) k2 = aget? d k2 := by
  induction d with
  | nil => simp [aset, aget?, h]
  | cons p rest ih =>
    by_cases hp : p.1 = k
    · subst hp; simp [aset, aget?, h]
    · simp only [aset, if_neg hp, aget?]
      by_cases hp2 : p.1 = k2 <;> simp [hp2, ih]

theorem aset_eq_of_aget? {α : Type} {d : Assoc α} {k : String} {v : α}
    (h : aget? d k = some v) : aset d k v = d := by
  induction d with
  | nil => simp [aget?] at h
  | cons p rest ih =>
    by_cases hp : p.1 = k
    · obtain ⟨k1, v1⟩ := p
      simp only at hp
      subst hp
      simp [aget?] at h
      subst h
      simp [aset]
    · simp only [aget?, if_neg hp] at h
      simp [aset, hp, ih h]

theorem akeys_aset_mem {α : Type} {d : Assoc α} {k : String} (v : α)
    (h : k ∈ akeys d) : akeys (aset d k v) = akeys d := by
  induction d with
  | nil => simp [akeys] at h
  | cons p rest ih =>
    by_cases hp : p.1 = k
    · simp [aset, hp, akeys]
    · simp only [akeys, List.map_cons, List.mem_cons] at h
      rcases h with h | h
      · exact absurd h.symm hp
      · have ih2 := ih h
        simp only [akeys] at ih2
        simp [aset, hp, akeys, List.map_cons, ih2]

theorem akeys_aset_not_mem {α : Type} {d : Assoc α} {k : String} (v : α)
    (h : ¬ k ∈ akeys d) : akeys (aset d k v) = akeys d ++ [k] := by
  induction d with
  | nil => simp [aset, akeys]
  | cons p rest ih =>
    simp only [akeys, List.map_cons, List.mem_cons] at h
    push_neg at h
    have ih2 := ih h.2
    simp only [akeys] at ih2
    simp [aset, Ne.symm h.1, akeys, List.map_cons, ih2]

/-! ## Python `int(...)` on attribute strings

`pyInt?` parses an optional sign followed by decimal digits (the forms the
script's data actually uses); any other string models a raised `ValueError`,
hence `none`. -/

def allDigits (l : List Char) : Bool := l.all (fun c => c.isDigit)

def digitsToNat (l : List Char) : Nat := l.foldl (fun a c => a * 10 + (c.toNat - 48)) 0

def pyInt? (s : String) : Option Int :=
  match s.toList with
  | [] => none
  | c :: rest =>
    if c = '-' then
      if rest ≠ [] ∧ allDigits rest then some (-(digitsToNat rest : Int)) else none
    else if c = '+' then
      if rest ≠ [] ∧ allDigits rest then some ((digitsToNat rest : Int)) else none
    else if allDigits (c :: rest) then some ((digitsToNat (c :: rest) : Int)) else none

/-- Python `x & 0x1` is nonzero exactly when the integer is odd
(`emod 2` agrees with two's-complement bit 0 for negative values too). -/
def approvedFlag (x : Int) : Bool := x.emod 2 = 1

/-! ## `get_addon_directory` and the three install-path call sites -/

/-- `get_addon_directory`: the `type_mapping` dict lookup; `none` models the
`KeyError` raised on any other type string. -/
def get_addon_directory (addon_type : String) : Option String :=
  if addon_type = "track" then some "tracks"
  else if addon_type = "kart" then some "karts"
  else if addon_type = "arena" then some "tracks"
  else none

/-- A path `addons_dir / typeDir / addonId` below the addons root. -/
structure AddonPath where
  typeDir : String
  addonId : String
deriving DecidableEq, Repr

/-- The install path computed by `verify_addon_installation`
(`addons_dir / get_addon_directory(addon_data['type']) / addon_id`). -/
def verify_install_path (e : Dict) : Option AddonPath := do
  let i ← aget? e "id"
  let ty ← aget? e "type"
  let td ← get_addon_directory ty
  return ⟨td, i⟩

/-- The install path computed by `_remove_addon_directory`. -/
def remove_install_path (e : Dict) : Option AddonPath := do
  let i ← aget? e "id"
  let ty ← aget? e "type"
  let td ← get_addon_directory ty
  return ⟨td, i⟩

/-- The extraction target computed by `download_and_extract_addons`
(`addons_dir / get_addon_directory(addon_data.get('type')) / addon_data['id']`). -/
def extract_target_path (e : Dict) : Option AddonPath := do
  let i ← aget? e "id"
  let ty ← aget? e "type"
  let td ← get_addon_directory ty
  return ⟨td, i⟩

/-- Claim C10: for addons of type `arena` the install, verification and removal
paths all use the `tracks` directory — the same directory as type `track` —
and the type-to-directory mapping is defined exactly on `track`, `kart` and
`arena`, raising a lookup error for any other type string. -/
theorem c10_arena_uses_tracks_directory :
    (∀ t, (get_addon_directory t).isSome = true ↔ (t = "track" ∨ t = "kart" ∨ t = "arena")) ∧
    get_addon_directory "arena" = some "tracks" ∧
    get_addon_directory "track" = some "tracks" ∧
    get_addon_directory "kart" = some "karts" ∧
    (∀ e, verify_install_path e = remove_install_path e ∧
          verify_install_path e = extract_target_path e) ∧
    (∀ i, verify_install_path [("id", i), ("type", "arena")] = some ⟨"tracks", i⟩ ∧
          verify_install_path [("id", i), ("type", "track")] = some ⟨"tracks", i⟩) := by
  refine ⟨?_, rfl, rfl, rfl, ?_, ?_⟩
  · intro t
    unfold get_addon_directory
    split <;> rename_i h₁
    · simp [h₁]
    · split <;> rename_i h₂
      · simp [h₂]
      · split <;> rename_i h₃ <;> simp [h₁, h₂, h₃]
  · intro e; exact ⟨rfl, rfl⟩
  · intro i
    constructor <;> rfl

/-- Closed instance of C10 at a concrete entry. -/
theorem c10_arena_uses_tracks_directory_witness :
    verify_install_path [("id", "xr600"), ("type", "arena")] = some ⟨"tracks", "xr600"⟩ ∧
    verify_install_path [("id", "xr600"), ("type", "arena")] =
      extract_target_path [("id", "xr600"), ("type", "arena")] ∧
    get_addon_directory "arena" = some "tracks" :=
  ⟨(c10_arena_uses_tracks_directory.2.2.2.2.2 "xr600").1,
   (c10_arena_uses_tracks_directory.2.2.2.2.1 [("id", "xr600"), ("type", "arena")]).2,
   c10_arena_uses_tracks_directory.2.1⟩

/-! ## The custom attribute escaper (`_escape_stk_attributes`) -/

/-- Membership in the source's `safe_chars` set, which consists of
`!` `'` `(` `)` `+` `,` `-` `.` `/`, the digits, `;`, the uppercase letters,
`[` `]` `_`, the lowercase letters and `|` (`Char.ofNat 39` is the
apostrophe). -/
def isStkSafe (c : Char) : Bool :=
  (('0' ≤ c && c ≤ '9') || ('A' ≤ c && c ≤ 'Z') || ('a' ≤ c && c ≤ 'z')) ||
  (c == '!' || c == Char.ofNat 39 || c == '(' || c == ')' || c == '+' || c == ',' ||
   c == '-' || c == '.' || c == '/' || c == ';' || c == '[' || c == ']' ||
   c == '_' || c == '|')

/-- One hex digit, uppercase (as Python's format specifier `X` emits). -/
def hexDigitUpper (n : Nat) : Char :=
  if n < 10 then Char.ofNat (48 + n) else Char.ofNat (55 + n)

/-- Fuel-driven most-significant-first hex expansion. -/
def toHexCore : Nat → Nat → List Char
  | 0, _ => []
  | fuel + 1, n =>
    if n < 16 then [hexDigitUpper n]
    else toHexCore fuel (n / 16) ++ [hexDigitUpper (n % 16)]

/-- Python's `f'&#x{ord(ch):X};'` digit string: uppercase hex, no padding. -/
def toHexUpper (n : Nat) : List Char := toHexCore (n + 1) n

/-- Hex digits as an XML parser accepts them in `&#x...;` references. -/
def isXmlHex (c : Char) : Bool :=
  ('0' ≤ c && c ≤ '9') || ('A' ≤ c && c ≤ 'F') || ('a' ≤ c && c ≤ 'f')

def xmlHexVal (c : Char) : Nat :=
  if '0' ≤ c && c ≤ '9' then c.toNat - 48
  else if 'A' ≤ c && c ≤ 'F' then c.toNat - 55
  else c.toNat - 87

def fromHexNat (l : List Char) : Nat := l.foldl (fun a c => a * 16 + xmlHexVal c) 0

/-- `_escape_stk_attributes` on one character: safe characters pass through,
everything else becomes `&#x<HEX>;`. -/
def escapeStkChar (c : Char) : List Char :=
  if isStkSafe c then [c] else '&' :: '#' :: 'x' :: (toHexUpper c.toNat ++ [';'])

/-- `_escape_stk_attributes` over a character list. -/
def escapeStk : List Char → List Char
  | [] => []
  | c :: rest => escapeStkChar c ++ escapeStk rest

/-- `_escape_stk_attributes` as a string function. -/
def escape_stk_attributes (s : String) : String := String.mk (escapeStk s.toList)

/-- Interpreting hexadecimal numeric character references, as the consuming
XML parser does: a literal `&` must open a `&#x<hexdigits>;` reference, any
other character stands for itself.  Fuel-driven for structural recursion;
one unit of fuel is spent per produced character. -/
def decodeFuel : Nat → List Char → Option (List Char)
  | _, [] => some []
  | 0, _ :: _ => none
  | fuel + 1, c :: rest =>
    if c = '&' then
      match rest with
      | '#' :: 'x' :: rest2 =>
        match rest2.takeWhile isXmlHex, rest2.dropWhile isXmlHex with
        | [], _ => none
        | _ :: _, [] => none
        | ds, t :: tail =>
          if t = ';' then (decodeFuel fuel tail).map (fun r => Char.ofNat (fromHexNat ds) :: r)
          else none
      | _ => none
    else (decodeFuel fuel rest).map (fun r => c :: r)

/-- Reference interpretation with enough fuel for any input. -/
def decodeRefs (l : List Char) : Option (List Char) := decodeFuel l.length l

theorem hexDigitUpper_ok : ∀ d < 16,
    isXmlHex (hexDigitUpper d) = true ∧ xmlHexVal (hexDigitUpper d) = d := by
  decide

theorem fromHexNat_append_one (l : List Char) (c : Char) :
    fromHexNat (l ++ [c]) = 16 * fromHexNat l + xmlHexVal c := by
  simp [fromHexNat, List.foldl_append, Nat.mul_comm]

theorem toHexCore_spec : ∀ fuel n, n < fuel →
    (toHexCore fuel n ≠ [] ∧ (∀ c ∈ toHexCore fuel n, isXmlHex c = true) ∧
     fromHexNat (toHexCore fuel n) = n) := by
  intro fuel
  induction fuel with
  | zero => intro n h; omega
  | succ f ih =>
    intro n h
    by_cases hn : n < 16
    · refine ⟨by simp [toHexCore, hn], ?_, ?_⟩
      · intro c hc
        simp [toHexCore, hn] at hc
        subst hc
        exact (hexDigitUpper_ok n hn).1
      · simp [toHexCore, hn, fromHexNat, (hexDigitUpper_ok n hn).2]
    · have hdiv : n / 16 < f := by
        have h1 : n / 16 < n := Nat.div_lt_self (by omega) (by omega)
        omega
      obtain ⟨hne, hhex, hval⟩ := ih (n / 16) hdiv
      have hmod : n % 16 < 16 := Nat.mod_lt _ (by omega)
      refine ⟨by simp [toHexCore, hn], ?_, ?_⟩
      · intro c hc
        simp only [toHexCore, if_neg hn, List.mem_append, List.mem_singleton] at hc
        rcases hc with hc | hc
        · exact hhex c hc
        · subst hc; exact (hexDigitUpper_ok _ hmod).1
      · simp only [toHexCore, if_neg hn]
        rw [fromHexNat_append_one, hval, (hexDigitUpper_ok _ hmod).2]
        omega

theorem toHexUpper_spec (n : Nat) :
    toHexUpper n ≠ [] ∧ (∀ c ∈ toHexUpper n, isXmlHex c = true) ∧
    fromHexNat (toHexUpper n) = n :=
  toHexCore_spec (n + 1) n (Nat.lt_succ_self n)

theorem takeWhile_append_sentinel {p : Char → Bool} :
    ∀ (l1 : List Char) (x : Char) (l2 : List Char),
    (∀ a ∈ l1, p a = true) → p x = false →
    (l1 ++ x :: l2).takeWhile p = l1 ∧ (l1 ++ x :: l2).dropWhile p = x :: l2 := by
  intro l1
  induction l1 with
  | nil =>
    intro x l2 _ hx
    simp [List.takeWhile, List.dropWhile, hx]
  | cons a l1 ih =>
    intro x l2 h hx
    have ha : p a = true := h a (by simp)
    have := ih x l2 (fun b hb => h b (by simp [hb])) hx
    simp [List.takeWhile, List.dropWhile, ha, this.1, this.2]

theorem isStkSafe_ne_amp {c : Char} (h : isStkSafe c = true) : c ≠ '&' := by
  intro he
  subst he
  simp [isStkSafe] at h

theorem escapeStk_decode : ∀ (s : List Char) (fuel : Nat), s.length ≤ fuel →
    decodeFuel fuel (escapeStk s) = some s := by
  intro s
  induction s with
  | nil =>
    intro fuel _
    cases fuel <;> simp [escapeStk, decodeFuel]
  | cons c rest ih =>
    intro fuel hlen
    simp only [List.length_cons] at hlen
    cases fuel with
    | zero => omega
    | succ f =>
      have ihr := ih f (by omega)
      by_cases hc : isStkSafe c
      · have hne : ¬ (c = '&') := isStkSafe_ne_amp hc
        simp [escapeStk, escapeStkChar, hc, decodeFuel, hne, ihr]
      · obtain ⟨hne, hhex, hval⟩ := toHexUpper_spec c.toNat
        have hsemi : isXmlHex ';' = false := by decide
        have hsplit := takeWhile_append_sentinel (toHexUpper c.toNat) ';' (escapeStk rest) hhex hsemi
        simp only [escapeStk, escapeStkChar, hc, if_neg, Bool.false_eq_true, not_false_iff,
          List.append_assoc, List.cons_append, List.nil_append] at *
        simp only [decodeFuel, if_pos rfl]
        have hassoc : toHexUpper c.toNat ++ [';'] ++ escapeStk rest =
            toHexUpper c.toNat ++ (';' :: escapeStk rest) := by simp
        rw [hassoc] at *
        rw [hsplit.1, hsplit.2]
        match hne2 : toHexUpper c.toNat with
        | [] => exact absurd hne2 hne
        | d :: ds =>
          rw [hne2] at hval
          simp [ihr, hval, Char.ofNat_toNat]

/-- Interpreting numeric references over the full escaped output. -/
theorem escapeStk_length_ge (s : List Char) : s.length ≤ (escapeStk s).length := by
  induction s with
  | nil => simp [escapeStk]
  | cons c rest ih =>
    have : escapeStkChar c ≠ [] := by
      unfold escapeStkChar
      split <;> simp
    have h1 : 1 ≤ (escapeStkChar c).length := by
      cases hc : escapeStkChar c with
      | nil => exact absurd hc this
      | cons a l => simp
    simp only [escapeStk, List.length_append, List.length_cons]
    omega

theorem decodeRefs_escapeStk (s : List Char) : decodeRefs (escapeStk s) = some s :=
  escapeStk_decode s (escapeStk s).length (escapeStk_length_ge s)

/-- Claim C6: the ledger attribute escaper passes ASCII digits, ASCII letters
and the punctuation set of `safe_chars` through unchanged, and emits every
other character (including space, `&`, `<`, `>` and the double quote,
`Char.ofNat 34`) as an uppercase-hex numeric character reference `&#xHEX;`;
escaping `A&B C` yields `A&#x26;B&#x20;C`, and interpreting the numeric
references back recovers the original string. -/
theorem c6_escaper_uppercase_hex_roundtrip :
    escape_stk_attributes "A&B C" = "A&#x26;B&#x20;C" ∧
    ((∀ c, isStkSafe c = true → escapeStkChar c = [c]) ∧
     (∀ c, isStkSafe c = false →
        escapeStkChar c = '&' :: '#' :: 'x' :: (toHexUpper c.toNat ++ [';']))) ∧
    (isStkSafe ' ' = false ∧ isStkSafe '&' = false ∧ isStkSafe '<' = false ∧
     isStkSafe '>' = false ∧ isStkSafe (Char.ofNat 34) = false) ∧
    (∀ s : List Char, decodeRefs (escapeStk s) = some s) := by
  refine ⟨by decide, ⟨?_, ?_⟩, by decide, decodeRefs_escapeStk⟩
  · intro c hc
    simp [escapeStkChar, hc]
  · intro c hc
    simp [escapeStkChar, hc]

/-- Closed instance of C6: the escaper at `A&B C` and a concrete round trip. -/
theorem c6_escaper_uppercase_hex_roundtrip_witness :
    escapeStkChar 'A' = ['A'] ∧
    decodeRefs (escapeStk [' ', '&', 'z']) = some [' ', '&', 'z'] :=
  ⟨c6_escaper_uppercase_hex_roundtrip.2.1.1 'A' (by decide),
   c6_escaper_uppercase_hex_roundtrip.2.2.2 [' ', '&', 'z']⟩

/-! ## Filesystem state and the consistency checks

The filesystem fragment the validation code inspects is the finite map from
addon install paths to nodes, where a node is a directory or a plain file.
`shutil.rmtree` on a plain file raises, `Path.unlink` removes it.  A check
either completes (`ok`) or raises (`err`); both outcomes carry the entry and
disk as they stand at that moment, since the script mutates its dictionaries
in place before any exception can be raised. -/

inductive FsNode where
  | dir
  | file
deriving DecidableEq, Repr

abbrev Disk := List (AddonPath × FsNode)

def diskGet? (d : Disk) (p : AddonPath) : Option FsNode :=
  (d.find? (fun q => q.1 == p)).map (·.2)

def diskRemove (d : Disk) (p : AddonPath) : Disk :=
  d.filter (fun q => !(q.1 == p))

/-- Outcome of one in-place validation step. -/
inductive VR where
  | ok (e : Dict) (d : Disk)
  | err (e : Dict) (d : Disk)
deriving DecidableEq, Repr

def VR.entry : VR → Dict
  | .ok e _ => e
  | .err e _ => e

def VR.disk : VR → Disk
  | .ok _ d => d
  | .err _ d => d

/-- `_mark_addon_uninstalled`: set `installed` to `'false'` and
`installed-revision` to `'0'`. -/
def mark_addon_uninstalled (e : Dict) : Dict :=
  aset (aset e "installed" "false") "installed-revision" "0"

/-- `_remove_addon_directory`: compute the install path (`KeyError` on a
missing `id`/`type` key or unknown type) and `shutil.rmtree` it if it
exists (raising if it exists but is not a directory). -/
def remove_addon_directory (e : Dict) (d : Disk) : VR :=
  match remove_install_path e with
  | none => VR.err e d
  | some p =>
    match diskGet? d p with
    | none => VR.ok e d
    | some FsNode.dir => VR.ok e (diskRemove d p)
    | some FsNode.file => VR.err e d

/-- `clean_unsupported_format_addons`: if installed and not a kart and the
remote catalog's `format` (default `999`) parses to at most `5`, mark
uninstalled and remove the directory. -/
def clean_unsupported_format_addons (e : Dict) (d : Disk) (addons_dict : Assoc Dict) : VR :=
  match aget? e "installed" with
  | none => VR.err e d
  | some inst =>
    if inst = "false" then VR.ok e d
    else
      match aget? e "type" with
      | none => VR.err e d
      | some ty =>
        if ty = "kart" then VR.ok e d
        else
          match aget? e "id" with
          | none => VR.err e d
          | some i =>
            match pyInt? (agetD (agetD addons_dict i []) "format" "999") with
            | none => VR.err e d
            | some format_id =>
              if format_id ≤ 5 then remove_addon_directory (mark_addon_uninstalled e) d
              else VR.ok e d

/-- `clean_unapproved_addons`: `status = int(addon_data.get('status','1'))`
is evaluated first; if installed and the approved bit is clear, mark
uninstalled and remove the directory. -/
def clean_unapproved_addons (e : Dict) (d : Disk) : VR :=
  match pyInt? (agetD e "status" "1") with
  | none => VR.err e d
  | some status =>
    match aget? e "installed" with
    | none => VR.err e d
    | some inst =>
      if inst = "false" then VR.ok e d
      else if approvedFlag status then VR.ok e d
      else
        match aget? e "id" with
        | none => VR.err e d
        | some _ => remove_addon_directory (mark_addon_uninstalled e) d

/-- `verify_addon_installation`: nothing to do when not installed; otherwise
check the install path — an existing directory is fine, an existing plain
file is unlinked, and in either remaining case the entry is marked
uninstalled. -/
def verify_addon_installation (e : Dict) (d : Disk) : VR :=
  match aget? e "installed" with
  | none => VR.err e d
  | some inst =>
    if inst = "false" then VR.ok e d
    else
      match aget? e "id" with
      | none => VR.err e d
      | some _ =>
        match verify_install_path e with
        | none => VR.err e d
        | some p =>
          match diskGet? d p with
          | some FsNode.dir => VR.ok e d
          | some FsNode.file => VR.ok (mark_addon_uninstalled e) (diskRemove d p)
          | none => VR.ok (mark_addon_uninstalled e) d

/-- `validate_addon_data`: the three checks in their fixed order; a raise in
an earlier check aborts the rest. -/
def validate_addon_data (e : Dict) (d : Disk) (addons_dict : Assoc Dict) : VR :=
  match clean_unsupported_format_addons e d addons_dict with
  | VR.err e1 d1 => VR.err e1 d1
  | VR.ok e1 d1 =>
    match clean_unapproved_addons e1 d1 with
    | VR.err e2 d2 => VR.err e2 d2
    | VR.ok e2 d2 => verify_addon_installation e2 d2

theorem mark_installed (e : Dict) :
    aget? (mark_addon_uninstalled e) "installed" = some "false" := by
  unfold mark_addon_uninstalled
  rw [aget?_aset_ne _ _ (by decide)]
  exact aget?_aset_self ..

theorem mark_installed_revision (e : Dict) :
    aget? (mark_addon_uninstalled e) "installed-revision" = some "0" :=
  aget?_aset_self ..

theorem mark_other (e : Dict) {k : String} (h1 : k ≠ "installed")
    (h2 : k ≠ "installed-revision") :
    aget? (mark_addon_uninstalled e) k = aget? e k := by
  unfold mark_addon_uninstalled
  rw [aget?_aset_ne _ _ (Ne.symm h2), aget?_aset_ne _ _ (Ne.symm h1)]

theorem remove_addon_directory_entry (e : Dict) (d : Disk) :
    (remove_addon_directory e d).entry = e := by
  unfold remove_addon_directory
  repeat' split
  all_goals rfl

theorem clean_unsupported_shape (e : Dict) (d : Disk) (cat : Assoc Dict) :
    clean_unsupported_format_addons e d cat = VR.ok e d ∨
    clean_unsupported_format_addons e d cat = VR.err e d ∨
    aget? (clean_unsupported_format_addons e d cat).entry "installed" = some "false" := by
  unfold clean_unsupported_format_addons
  repeat' split
  all_goals solve
    | simp [VR.entry, mark_installed]
    | (right; right; rw [remove_addon_directory_entry]; exact mark_installed _)

theorem clean_unapproved_shape (e : Dict) (d : Disk) :
    clean_unapproved_addons e d = VR.ok e d ∨
    clean_unapproved_addons e d = VR.err e d ∨
    aget? (clean_unapproved_addons e d).entry "installed" = some "false" := by
  unfold clean_unapproved_addons
  repeat' split
  all_goals solve
    | simp [VR.entry, mark_installed]
    | (right; right; rw [remove_addon_directory_entry]; exact mark_installed _)

theorem verify_shape (e : Dict) (d : Disk) :
    verify_addon_installation e d = VR.ok e d ∨
    verify_addon_installation e d = VR.err e d ∨
    aget? (verify_addon_installation e d).entry "installed" = some "false" := by
  unfold verify_addon_installation
  repeat' split
  all_goals simp [VR.entry, mark_installed]

theorem clean_unsupported_false (e : Dict) (d : Disk) (cat : Assoc Dict)
    (h : aget? e "installed" = some "false") :
    clean_unsupported_format_addons e d cat = VR.ok e d := by
  unfold clean_unsupported_format_addons
  rw [h]
  simp

theorem clean_unapproved_false (e : Dict) (d : Disk)
    (h : aget? e "installed" = some "false") :
    clean_unapproved_addons e d = VR.ok e d ∨ clean_unapproved_addons e d = VR.err e d := by
  unfold clean_unapproved_addons
  rw [h]
  split
  · right; rfl
  · left; simp

theorem verify_false (e : Dict) (d : Disk)
    (h : aget? e "installed" = some "false") :
    verify_addon_installation e d = VR.ok e d := by
  unfold verify_addon_installation
  rw [h]
  simp

/-- When an entry is already uninstalled, the whole consistency check leaves
the entry and the disk exactly as they are (it completes or raises in
`clean_unapproved_addons` before mutating anything). -/
theorem validate_false_stable (e : Dict) (d : Disk) (cat : Assoc Dict)
    (h : aget? e "installed" = some "false") :
    validate_addon_data e d cat = VR.ok e d ∨ validate_addon_data e d cat = VR.err e d := by
  have h1 := clean_unsupported_false e d cat h
  rcases clean_unapproved_false e d h with h2 | h2
  · have h3 := verify_false e d h
    left
    unfold validate_addon_data
    simp [h1, h2, h3]
  · right
    unfold validate_addon_data
    simp [h1, h2]

/-- The consistency check either leaves the state untouched (completing or
raising) or leaves an entry marked uninstalled. -/
theorem validate_shape (e : Dict) (d : Disk) (cat : Assoc Dict) :
    validate_addon_data e d cat = VR.ok e d ∨
    validate_addon_data e d cat = VR.err e d ∨
    aget? (validate_addon_data e d cat).entry "installed" = some "false" := by
  rcases clean_unsupported_shape e d cat with h1 | h1 | h1
  · rcases clean_unapproved_shape e d with h2 | h2 | h2
    · rcases verify_shape e d with h3 | h3 | h3
      · left; unfold validate_addon_data; simp [h1, h2, h3]
      · right; left; unfold validate_addon_data; simp [h1, h2, h3]
      · right; right; unfold validate_addon_data; simp only [h1, h2]
        simpa using h3
    · right; left; unfold validate_addon_data; simp [h1, h2]
    · cases hc : clean_unapproved_addons e d with
      | ok e2 d2 =>
        rw [hc] at h2
        simp only [VR.entry] at h2
        right; right
        unfold validate_addon_data
        simp [h1, hc, verify_false e2 d2 h2, VR.entry, h2]
      | err e2 d2 =>
        rw [hc] at h2
        simp only [VR.entry] at h2
        right; right
        unfold validate_addon_data
        simp [h1, hc, VR.entry, h2]
  · right; left; unfold validate_addon_data; simp [h1]
  · cases hc : clean_unsupported_format_addons e d cat with
    | ok e1 d1 =>
      rw [hc] at h1
      simp only [VR.entry] at h1
      right; right
      unfold validate_addon_data
      rcases clean_unapproved_false e1 d1 h1 with h2 | h2
      · simp [hc, h2, verify_false e1 d1 h1, VR.entry, h1]
      · simp [hc, h2, VR.entry, h1]
    | err e1 d1 =>
      rw [hc] at h1
      simp only [VR.entry] at h1
      right; right
      unfold validate_addon_data
      simp [hc, VR.entry, h1]

/-- Claim C3: for every ledger entry, catalog and disk state, the Consistency
Check (`validate_addon_data`) never changes `installed` away from `'false'`
— the resulting entry's `installed` field is either unchanged or `'false'`,
and an entry already at `'false'` is left entirely untouched — and it is
idempotent: running the check again on its own result leaves both the entry
state and the disk state unchanged. -/
theorem c3_consistency_check_monotone_idempotent
    (e : Dict) (d : Disk) (addons_dict : Assoc Dict) :
    (aget? (validate_addon_data e d addons_dict).entry "installed" = aget? e "installed" ∨
     aget? (validate_addon_data e d addons_dict).entry "installed" = some "false") ∧
    (aget? e "installed" = some "false" →
      validate_addon_data e d addons_dict = VR.ok e d ∨
      validate_addon_data e d addons_dict = VR.err e d) ∧
    ((validate_addon_data (validate_addon_data e d addons_dict).entry
        (validate_addon_data e d addons_dict).disk addons_dict).entry =
      (validate_addon_data e d addons_dict).entry ∧
     (validate_addon_data (validate_addon_data e d addons_dict).entry
        (validate_addon_data e d addons_dict).disk addons_dict).disk =
      (validate_addon_data e d addons_dict).disk) := by
  refine ⟨?_, validate_false_stable e d addons_dict, ?_⟩
  · rcases validate_shape e d addons_dict with h | h | h
    · left; rw [h]; rfl
    · left; rw [h]; rfl
    · right; exact h
  · rcases validate_shape e d addons_dict with h | h | h
    · rw [h]
      simp only [VR.entry, VR.disk]
      rw [h]
      exact ⟨rfl, rfl⟩
    · rw [h]
      simp only [VR.entry, VR.disk]
      rw [h]
      exact ⟨rfl, rfl⟩
    · rcases validate_false_stable (validate_addon_data e d addons_dict).entry
        (validate_addon_data e d addons_dict).disk addons_dict h with h2 | h2 <;>
        rw [h2] <;> exact ⟨rfl, rfl⟩

/-- Closed instance of C3 at a concrete uninstalled entry. -/
theorem c3_consistency_check_monotone_idempotent_witness :
    validate_addon_data [("installed", "false"), ("id", "t1")] [] [] =
      VR.ok [("installed", "false"), ("id", "t1")] [] ∨
    validate_addon_data [("installed", "false"), ("id", "t1")] [] [] =
      VR.err [("installed", "false"), ("id", "t1")] [] :=
  (c3_consistency_check_monotone_idempotent [("installed", "false"), ("id", "t1")] [] []).2.1
    (by decide)

theorem aget?_eq_none_of_not_mem {α : Type} {d : Assoc α} {k : String}
    (h : k ∉ akeys d) : aget? d k = none := by
  induction d with
  | nil => rfl
  | cons p rest ih =>
    simp only [akeys, List.map_cons, List.mem_cons] at h
    push_neg at h
    simp [aget?, Ne.symm h.1, ih h.2]

theorem aget?_aupdate_nodup {α : Type} (b l : Assoc α) (k : String)
    (h : (akeys l).Nodup) :
    aget? (aupdate b l) k =
      match aget? l k with
      | some v => some v
      | none => aget? b k := by
  induction l generalizing b with
  | nil => simp [aupdate, aget?]
  | cons p rest ih =>
    simp only [akeys, List.map_cons, List.nodup_cons] at h
    have step : aupdate b (p :: rest) = aupdate (aset b p.1 p.2) rest := rfl
    rw [step, ih _ h.2]
    by_cases hk : p.1 = k
    · subst hk
      have : aget? rest p.1 = none := aget?_eq_none_of_not_mem h.1
      simp [aget?, this]
    · simp [aget?, hk, aget?_aset_ne _ _ hk]

theorem aget?_filter_all {α : Type} {P : String × α → Bool} {l : Assoc α} {k : String}
    (hP : ∀ p : String × α, p.1 = k → P p = true) :
    aget? (l.filter P) k = aget? l k := by
  induction l with
  | nil => rfl
  | cons p rest ih =>
    by_cases hk : p.1 = k
    · rw [List.filter_cons_of_pos (hP p hk)]
      simp [aget?, hk]
    · by_cases hp : P p
      · rw [List.filter_cons_of_pos hp]
        simp [aget?, hk, ih]
      · rw [List.filter_cons_of_neg (by simpa using hp)]
        simp [aget?, hk, ih]

theorem aget?_filter_none {α : Type} {P : String × α → Bool} {l : Assoc α} {k : String}
    (hP : ∀ p : String × α, p.1 = k → P p = false) :
    aget? (l.filter P) k = none := by
  induction l with
  | nil => rfl
  | cons p rest ih =>
    by_cases hp : P p
    · have hk : p.1 ≠ k := by
        intro he
        rw [hP p he] at hp
        exact absurd hp (by simp)
      rw [List.filter_cons_of_pos hp]
      simp [aget?, hk, ih]
    · rw [List.filter_cons_of_neg (by simpa using hp)]
      exact ih

theorem akeys_filter_nodup {α : Type} {l : Assoc α} {P : String × α → Bool}
    (h : (akeys l).Nodup) : (akeys (l.filter P)).Nodup :=
  List.Nodup.sublist (List.Sublist.map _ (List.filter_sublist l)) h

theorem diskGet?_remove_self (d : Disk) (p : AddonPath) :
    diskGet? (diskRemove d p) p = none := by
  induction d with
  | nil => rfl
  | cons q rest ih =>
    by_cases hq : q.1 = p
    · subst hq
      simp only [diskRemove, List.filter_cons, beq_self_eq_true, Bool.not_true,
        Bool.false_eq_true, if_false]
      exact ih
    · have hb : (q.1 == p) = false := by simp [hq]
      simp only [diskRemove, List.filter_cons, hb, Bool.not_false, if_true, diskGet?,
        List.find?]
      exact ih

/-! ## `_build_addon_metadata` and the per-id reconciliation step -/

/-- `addon_data.get('image','').split('/')[-1]`. -/
def lastSlashComponent (s : String) : String := (s.splitOn "/").getLastD ""

/-- The fresh dictionary literal `_build_addon_metadata` constructs before the
overlay, in its exact key order. -/
def addonMetadataBase (nm i ds st dt sz rv icon ty : String) : Dict :=
  [("name", nm), ("id", i), ("designer", ds), ("status", st), ("date", dt),
   ("installed", "false"), ("installed-revision", "0"), ("size", sz),
   ("icon-revision", rv), ("icon-name", icon), ("type", ty)]

/-- The overlay predicate: `k in ('installed', 'installed-revision')`. -/
def isOverlayKey (p : String × String) : Bool :=
  p.1 == "installed" || p.1 == "installed-revision"

/-- `_build_addon_metadata(addon_data, installed)`: fresh defaults built from
the catalog entry, then `update` with the previous entry's `installed` and
`installed-revision` bindings; `none` models a `KeyError` on a missing
required catalog attribute. -/
def build_addon_metadata (addon_data installed : Dict) : Option Dict := do
  let nm ← aget? addon_data "name"
  let i ← aget? addon_data "id"
  let ds ← aget? addon_data "designer"
  let st ← aget? addon_data "status"
  let dt ← aget? addon_data "date"
  let sz ← aget? addon_data "size"
  let rv ← aget? addon_data "revision"
  let ty ← aget? addon_data "type"
  let icon := lastSlashComponent (agetD addon_data "image" "")
  return aupdate (addonMetadataBase nm i ds st dt sz rv icon ty)
    (installed.filter isOverlayKey)

/-- The remote-present branch of `write_installed_addons` for one id:
build the fresh metadata and, when `warn` is set, run the Consistency Check
on it. -/
def reconcile_remote_entry (addon_data installed : Dict) (d : Disk)
    (addons_dict : Assoc Dict) (warn : Bool) : Option VR :=
  (build_addon_metadata addon_data installed).map
    (fun e => if warn then validate_addon_data e d addons_dict else VR.ok e d)

theorem aget?_aupdate_not_mem {α : Type} (b : Assoc α) (l : Assoc α) (k : String)
    (h : k ∉ akeys l) : aget? (aupdate b l) k = aget? b k := by
  induction l generalizing b with
  | nil => rfl
  | cons p rest ih =>
    simp only [akeys, List.map_cons, List.mem_cons] at h
    push_neg at h
    have step : aupdate b (p :: rest) = aupdate (aset b p.1 p.2) rest := rfl
    rw [step, ih _ (by simpa [akeys] using h.2), aget?_aset_ne _ _ (Ne.symm h.1)]

/-- Lookup of an overlay key on a built entry: the previous entry's binding
if present, else the fresh default. -/
theorem aget?_built_overlay (base inst : Dict) (k : String)
    (hk : ∀ p : String × String, p.1 = k → isOverlayKey p = true)
    (hnd : (akeys inst).Nodup) :
    aget? (aupdate base (inst.filter isOverlayKey)) k =
      match aget? inst k with
      | some v => some v
      | none => aget? base k := by
  rw [aget?_aupdate_nodup _ _ _ (akeys_filter_nodup hnd), aget?_filter_all hk]
  cases aget? inst k <;> rfl

/-- Lookup of a non-overlay key on a built entry: always the fresh value. -/
theorem aget?_built_other (base inst : Dict) (k : String)
    (hk : ∀ p : String × String, p.1 = k → isOverlayKey p = false) :
    aget? (aupdate base (inst.filter isOverlayKey)) k = aget? base k := by
  apply aget?_aupdate_not_mem
  intro hmem
  simp only [akeys, List.mem_map] at hmem
  obtain ⟨p, hp, hpk⟩ := hmem
  rw [List.mem_filter] at hp
  rw [hk p hpk] at hp
  exact absurd hp.2 (by simp)

/-- Claim C7: a ledger entry recorded `installed='true'` whose catalog entry
has `type='track'` and `format='5'` is, under reconciliation with validation
enabled (`write_installed_addons(..., warn=True)` on the remote-present
branch), rewritten to `installed='false'`, `installed-revision='0'`, and its
install directory `tracks/<id>` is removed from disk if present. -/
theorem c7_format5_track_uninstalled
    (nm i ds st dt sz rv : String) (a inst : Dict) (cat : Assoc Dict) (d : Disk) (sv : Int)
    (hname : aget? a "name" = some nm) (hid : aget? a "id" = some i)
    (hdes : aget? a "designer" = some ds) (hst : aget? a "status" = some st)
    (hdate : aget? a "date" = some dt) (hsize : aget? a "size" = some sz)
    (hrev : aget? a "revision" = some rv) (hty : aget? a "type" = some "track")
    (hcat : aget? cat i = some a) (hfmt : aget? a "format" = some "5")
    (hstv : pyInt? st = some sv)
    (hinst : aget? inst "installed" = some "true")
    (hinstnd : (akeys inst).Nodup)
    (hdisk : diskGet? d ⟨"tracks", i⟩ ≠ some FsNode.file) :
    ∃ e1 d1, reconcile_remote_entry a inst d cat true = some (VR.ok e1 d1) ∧
      aget? e1 "installed" = some "false" ∧
      aget? e1 "installed-revision" = some "0" ∧
      diskGet? d1 ⟨"tracks", i⟩ = none := by
  have hbuild : build_addon_metadata a inst =
      some (aupdate (addonMetadataBase nm i ds st dt sz rv
              (lastSlashComponent (agetD a "image" "")) "track")
            (inst.filter isOverlayKey)) := by
    simp [build_addon_metadata, hname, hid, hdes, hst, hdate, hsize, hrev, hty]
  set base := addonMetadataBase nm i ds st dt sz rv
      (lastSlashComponent (agetD a "image" "")) "track" with hbase
  set built := aupdate base (inst.filter isOverlayKey) with hbuiltdef
  have hbinst : aget? built "installed" = some "true" := by
    rw [hbuiltdef, aget?_built_overlay base inst _ (by intro p hp; simp [isOverlayKey, hp]) hinstnd,
      hinst]
  have hbty : aget? built "type" = some "track" := by
    rw [hbuiltdef, aget?_built_other base inst _ (by intro p hp; simp [isOverlayKey, hp])]
    rfl
  have hbid : aget? built "id" = some i := by
    rw [hbuiltdef, aget?_built_other base inst _ (by intro p hp; simp [isOverlayKey, hp])]
    rfl
  have hbst : aget? built "status" = some st := by
    rw [hbuiltdef, aget?_built_other base inst _ (by intro p hp; simp [isOverlayKey, hp])]
    rfl
  have hreme : aget? (mark_addon_uninstalled built) "id" = some i := by
    rw [mark_other built (by decide) (by decide)]; exact hbid
  have hremty : aget? (mark_addon_uninstalled built) "type" = some "track" := by
    rw [mark_other built (by decide) (by decide)]; exact hbty
  have hremst : aget? (mark_addon_uninstalled built) "status" = some st := by
    rw [mark_other built (by decide) (by decide)]; exact hbst
  have hpath : remove_install_path (mark_addon_uninstalled built) = some ⟨"tracks", i⟩ := by
    simp [remove_install_path, hreme, hremty, get_addon_directory]
  have hfmtlook : agetD (agetD cat i []) "format" "999" = "5" := by
    simp [agetD, hcat, hfmt]
  have h5 : pyInt? "5" = some 5 := by decide
  have hstep1 : clean_unsupported_format_addons built d cat =
      remove_addon_directory (mark_addon_uninstalled built) d := by
    simp [clean_unsupported_format_addons, hbinst, hbty, hbid, hfmtlook, h5]
  have hmarkinst : aget? (mark_addon_uninstalled built) "installed" = some "false" :=
    mark_installed built
  have hstep23 : ∀ d1 : Disk,
      clean_unapproved_addons (mark_addon_uninstalled built) d1 =
        VR.ok (mark_addon_uninstalled built) d1 := by
    intro d1
    unfold clean_unapproved_addons
    rw [show agetD (mark_addon_uninstalled built) "status" "1" = st by simp [agetD, hremst]]
    rw [hstv, hmarkinst]
    simp
  have hvalidate : ∀ d1 : Disk,
      clean_unsupported_format_addons built d cat = VR.ok (mark_addon_uninstalled built) d1 →
      validate_addon_data built d cat = VR.ok (mark_addon_uninstalled built) d1 := by
    intro d1 h1
    unfold validate_addon_data
    rw [h1]
    simp [hstep23 d1, verify_false _ _ hmarkinst]
  cases hd : diskGet? d ⟨"tracks", i⟩ with
  | none =>
    refine ⟨mark_addon_uninstalled built, d, ?_, hmarkinst, mark_installed_revision built, hd⟩
    have hv : validate_addon_data built d cat = VR.ok (mark_addon_uninstalled built) d := by
      apply hvalidate
      rw [hstep1]
      simp [remove_addon_directory, hpath, hd]
    simp [reconcile_remote_entry, hbuild, hv]
  | some node =>
    cases node with
    | file => exact absurd hd hdisk
    | dir =>
      refine ⟨mark_addon_uninstalled built, diskRemove d ⟨"tracks", i⟩, ?_, hmarkinst,
        mark_installed_revision built, diskGet?_remove_self d ⟨"tracks", i⟩⟩
      have hv : validate_addon_data built d cat =
          VR.ok (mark_addon_uninstalled built) (diskRemove d ⟨"tracks", i⟩) := by
        apply hvalidate
        rw [hstep1]
        simp [remove_addon_directory, hpath, hd]
      simp [reconcile_remote_entry, hbuild, hv]

/-- Closed instance of C7: a concrete installed format-5 track is uninstalled
and its directory removed. -/
theorem c7_format5_track_uninstalled_witness :
    ∃ e1 d1,
      reconcile_remote_entry
        [("id", "t1"), ("name", "N"), ("designer", "D"), ("status", "1"), ("date", "0"),
         ("size", "10"), ("revision", "3"), ("type", "track"), ("format", "5")]
        [("installed", "true"), ("installed-revision", "2")]
        [(⟨"tracks", "t1"⟩, FsNode.dir)]
        [("t1", [("id", "t1"), ("name", "N"), ("designer", "D"), ("status", "1"), ("date", "0"),
          ("size", "10"), ("revision", "3"), ("type", "track"), ("format", "5")])]
        true = some (VR.ok e1 d1) ∧
      aget? e1 "installed" = some "false" ∧
      aget? e1 "installed-revision" = some "0" ∧
      diskGet? d1 ⟨"tracks", "t1"⟩ = none :=
  c7_format5_track_uninstalled "N" "t1" "D" "1" "0" "10" "3"
    [("id", "t1"), ("name", "N"), ("designer", "D"), ("status", "1"), ("date", "0"),
     ("size", "10"), ("revision", "3"), ("type", "track"), ("format", "5")]
    [("installed", "true"), ("installed-revision", "2")]
    [("t1", [("id", "t1"), ("name", "N"), ("designer", "D"), ("status", "1"), ("date", "0"),
      ("size", "10"), ("revision", "3"), ("type", "track"), ("format", "5")])]
    [(⟨"tracks", "t1"⟩, FsNode.dir)] 1
    (by decide) (by decide) (by decide) (by decide) (by decide) (by decide) (by decide)
    (by decide) (by decide) (by decide) (by decide) (by decide) (by decide) (by decide)

/-! ## Claim C4: the `installed == false ⇒ installed_revision == 0` invariant -/

/-- The spec's ledger-entry invariant `installed == false ⇒ installed_revision == 0`. -/
def rev_invariant (e : Dict) : Prop :=
  aget? e "installed" = some "false" → aget? e "installed-revision" = some "0"

/-- `_build_addon_metadata` on a catalog entry with all required attributes. -/
theorem build_addon_metadata_some (a inst : Dict) (nm i ds st dt sz rv ty : String)
    (hname : aget? a "name" = some nm) (hid : aget? a "id" = some i)
    (hdes : aget? a "designer" = some ds) (hst : aget? a "status" = some st)
    (hdate : aget? a "date" = some dt) (hsize : aget? a "size" = some sz)
    (hrev : aget? a "revision" = some rv) (hty : aget? a "type" = some ty) :
    build_addon_metadata a inst =
      some (aupdate (addonMetadataBase nm i ds st dt sz rv
              (lastSlashComponent (agetD a "image" "")) ty)
            (inst.filter isOverlayKey)) := by
  simp [build_addon_metadata, hname, hid, hdes, hst, hdate, hsize, hrev, hty]

/-- Counterexample to claim C4 as stated: reconciliation overlays the previous
entry's `installed`/`installed-revision` fields verbatim, so a local entry
with `installed='false'` but `installed-revision='7'` produces an output
entry that still violates the invariant. -/
theorem c4_counterexample :
    ∃ e, build_addon_metadata
        [("name", "N"), ("id", "t1"), ("designer", "D"), ("status", "1"), ("date", "0"),
         ("size", "10"), ("revision", "3"), ("type", "track")]
        [("installed", "false"), ("installed-revision", "7")] = some e ∧
      aget? e "installed" = some "false" ∧ aget? e "installed-revision" = some "7" ∧
      ¬ rev_invariant e := by
  have h : (build_addon_metadata
        [("name", "N"), ("id", "t1"), ("designer", "D"), ("status", "1"), ("date", "0"),
         ("size", "10"), ("revision", "3"), ("type", "track")]
        [("installed", "false"), ("installed-revision", "7")]).map
      (fun e => (aget? e "installed", aget? e "installed-revision")) =
      some (some "false", some "7") := by decide
  obtain ⟨e, hb, he⟩ := Option.map_eq_some'.mp h
  rw [Prod.ext_iff] at he
  simp only at he
  refine ⟨e, hb, he.1, he.2, fun hinv => ?_⟩
  have h0 := hinv he.1
  rw [he.2] at h0
  simp at h0

/-- Claim C4, amended: `_mark_addon_uninstalled` establishes the invariant,
and `_build_addon_metadata` preserves it — the overlay copies the previous
entry's `installed`/`installed-revision` bindings verbatim, so the output
satisfies the invariant whenever the previous local entry either is marked
`installed='true'`, or carries no `installed-revision` binding, or carries
`installed-revision='0'`; an input entry violating this propagates its
violation to the output (see the counterexample). -/
theorem c4_amended_invariant_preserved
    (nm i ds st dt sz rv ty : String) (a inst : Dict)
    (hname : aget? a "name" = some nm) (hid : aget? a "id" = some i)
    (hdes : aget? a "designer" = some ds) (hst : aget? a "status" = some st)
    (hdate : aget? a "date" = some dt) (hsize : aget? a "size" = some sz)
    (hrev : aget? a "revision" = some rv) (hty : aget? a "type" = some ty)
    (hnd : (akeys inst).Nodup)
    (hok : aget? inst "installed" = some "true" ∨
           aget? inst "installed-revision" = none ∨
           aget? inst "installed-revision" = some "0") :
    (∀ e, build_addon_metadata a inst = some e → rev_invariant e) ∧
    (∀ e2, rev_invariant (mark_addon_uninstalled e2)) := by
  constructor
  · intro e hb
    rw [build_addon_metadata_some a inst nm i ds st dt sz rv ty
      hname hid hdes hst hdate hsize hrev hty] at hb
    rw [Option.some_inj] at hb
    subst hb
    set base := addonMetadataBase nm i ds st dt sz rv
        (lastSlashComponent (agetD a "image" "")) ty with hbase
    intro hfalse
    have hrevlook := aget?_built_overlay base inst "installed-revision"
      (by intro p hp; simp [isOverlayKey, hp]) hnd
    have hinstlook := aget?_built_overlay base inst "installed"
      (by intro p hp; simp [isOverlayKey, hp]) hnd
    rcases hok with hok | hok | hok
    · rw [hok] at hinstlook
      rw [hinstlook] at hfalse
      simp at hfalse
    · rw [hrevlook, hok]
      rfl
    · rw [hrevlook, hok]
  · intro e2 _
    exact mark_installed_revision e2

/-- Closed instance of the amended C4 for a concrete previous entry. -/
theorem c4_amended_invariant_preserved_witness :
    (∀ e, build_addon_metadata
        [("name", "N"), ("id", "t1"), ("designer", "D"), ("status", "1"), ("date", "0"),
         ("size", "10"), ("revision", "3"), ("type", "track")]
        [("installed", "false"), ("installed-revision", "0")] = some e → rev_invariant e) ∧
    (∀ e2, rev_invariant (mark_addon_uninstalled e2)) :=
  c4_amended_invariant_preserved "N" "t1" "D" "1" "0" "10" "3" "track"
    [("name", "N"), ("id", "t1"), ("designer", "D"), ("status", "1"), ("date", "0"),
     ("size", "10"), ("revision", "3"), ("type", "track")]
    [("installed", "false"), ("installed-revision", "0")]
    (by decide) (by decide) (by decide) (by decide) (by decide) (by decide) (by decide)
    (by decide) (by decide) (Or.inr (Or.inr (by decide)))

/-! ## The ledger XML document model

`xml.etree.ElementTree` is an external collaborator (spec §1); documents are
modelled structurally.  `render_doc` is the deterministic byte rendering of a
document (declaration, root element with its attributes, one self-closing
child element per entry), applying the script's custom escaper to attribute
values; byte-identity of two persisted files follows from equality of their
documents.  ElementTree's namespace mechanics (the `xmlns` attribute turning
into a `{ns}` tag prefix on re-parse, stripped by `get_installed_addons`) are
part of the collaborator: tags here carry their plain names. -/

structure XElem where
  tag : String
  attrs : Dict
deriving DecidableEq, Repr

structure XDoc where
  rootTag : String
  rootAttrs : Dict
  children : List XElem
deriving DecidableEq, Repr

def STKNS : String := "https://online.supertuxkart.net/"

/-- `_get_addon_sort_key`: `type_priority[addon_data['type']] + addon_data['id']`;
`none` models the `KeyError` on a missing/unknown type or a missing id. -/
def addon_sort_key (e : Dict) : Option String := do
  let ty ← aget? e "type"
  let pr ← (if ty = "kart" then some "aaa" else if ty = "track" then some "aab"
            else if ty = "arena" then some "aac" else none)
  let i ← aget? e "id"
  return pr ++ i

def sortKeyD (e : Dict) : String := (addon_sort_key e).getD ""

/-- `addons_to_build.sort(key=_get_addon_sort_key)`. -/
def sortEntries (l : List Dict) : List Dict :=
  List.insertionSort (fun e1 e2 => sortKeyD e1 ≤ sortKeyD e2) l

/-- The union `set((*addons_dict.keys(), *installed_addons.keys()))` in a
canonical order (catalog keys first, then ledger-only keys).  Python's set
iteration order is arbitrary, but the subsequent sort makes the output
independent of it whenever the sort keys are distinct
(`sortEntries_eq_of_perm` below). -/
def union_ids (cat led : Assoc Dict) : List String :=
  akeys cat ++ (akeys led).filter (fun i => !(aget? cat i).isSome)

/-- One iteration of the `write_installed_addons` loop: the orphan branch
carries the ledger entry over unchanged, the remote branch rebuilds it. -/
def build_entry_for (cat led : Assoc Dict) (i : String) : Option Dict :=
  match aget? cat i with
  | none => aget? led i
  | some a => build_addon_metadata a (agetD led i [])

/-- `write_installed_addons(addons_dict, installed_addons, warn=False)` up to
serialization: the sorted `addons_to_build` list (`none` models a raised
`KeyError`). -/
def write_installed_addons_list (cat led : Assoc Dict) : Option (List Dict) := do
  let l ← (union_ids cat led).mapM (build_entry_for cat led)
  let _ ← l.mapM addon_sort_key
  return sortEntries l

/-- `builder.start(data['type'], {k: v for k, v in data.items() if k != 'type'})`. -/
def elem_of_entry (e : Dict) : Option XElem := do
  let ty ← aget? e "type"
  return ⟨ty, e.filter (fun p => !(p.1 == "type"))⟩

/-- `_write_addons_xml`: the document written to the ledger file. -/
def write_addons_xml_doc (l : List Dict) : Option XDoc := do
  let children ← l.mapM elem_of_entry
  return ⟨"addons", [("xmlns", STKNS)], children⟩

/-- `write_installed_addons` followed by `_write_addons_xml`: the persisted
document. -/
def persist_doc (cat led : Assoc Dict) : Option XDoc := do
  let l ← write_installed_addons_list cat led
  write_addons_xml_doc l

def renderAttrs (attrs : Dict) : String :=
  attrs.foldl (fun acc p => acc ++ " " ++ p.1 ++ "=\"" ++ escape_stk_attributes p.2 ++ "\"") ""

def renderElem (x : XElem) : String :=
  "  <" ++ x.tag ++ renderAttrs x.attrs ++ " />\n"

/-- Deterministic byte rendering of a persisted document. -/
def render_doc (doc : XDoc) : String :=
  "<?xml version=\"1.0\" encoding=\"utf-8\"?>\n<" ++ doc.rootTag ++
    renderAttrs doc.rootAttrs ++ ">\n" ++
    String.join (doc.children.map renderElem) ++ "</" ++ doc.rootTag ++ ">"

/-- The persisted ledger file's bytes. -/
def persist_bytes (cat led : Assoc Dict) : Option String :=
  (persist_doc cat led).map render_doc

/-- `get_installed_addons` on a parsed ledger document: iterate the root and
its children in document order, keep every element carrying an `id`
attribute, and key the dictionary `{'type': tag, **attrs}` by that id. -/
def get_installed_addons_doc (doc : XDoc) : Assoc Dict :=
  (XElem.mk doc.rootTag doc.rootAttrs :: doc.children).foldl
    (fun m x =>
      match aget? x.attrs "id" with
      | none => m
      | some i => aset m i (aupdate [("type", x.tag)] x.attrs)) []

/-! ## Claim C2: how `_write_addons_xml` touches the filesystem -/

inductive FsOp where
  | openTrunc (path : String)
  | writeBytes (path : String) (data : String)
  | closeFile (path : String)
  | renameFile (src dst : String)
deriving DecidableEq, Repr

def installed_xml_path : String := "stk/addons/addons_installed.xml"

/-- The filesystem trace of `_write_addons_xml`: `tree.write(installed_xml,
...)` opens the destination path itself for writing (truncating), streams the
serialized document into it, and closes it — there is no temporary file and
no rename (contrast `download_with_progress`, which writes a `.part` file and
`replace`s it into place). -/
def write_addons_xml_trace (l : List Dict) : Option (List FsOp) :=
  (write_addons_xml_doc l).map (fun doc =>
    [FsOp.openTrunc installed_xml_path,
     FsOp.writeBytes installed_xml_path (render_doc doc),
     FsOp.closeFile installed_xml_path])

def touchesTargetDirectly (op : FsOp) (target : String) : Bool :=
  match op with
  | .openTrunc p => p == target
  | .writeBytes p _ => p == target
  | _ => false

def isRenameTo (op : FsOp) (target : String) : Bool :=
  match op with
  | .renameFile src dst => dst == target && !(src == target)
  | _ => false

/-- Modelled from the spec: atomic persistence means every write lands on a
path other than the ledger file, which becomes visible only through a rename
onto the ledger path (write to temp location then rename, or equivalent). -/
def atomic_temp_rename (tr : List FsOp) (target : String) : Prop :=
  (∀ op ∈ tr, touchesTargetDirectly op target = false) ∧
  (∃ op ∈ tr, isRenameTo op target = true)

theorem write_addons_xml_trace_shape (l : List Dict) (tr : List FsOp)
    (h : write_addons_xml_trace l = some tr) :
    FsOp.openTrunc installed_xml_path ∈ tr ∧
    (∃ data, FsOp.writeBytes installed_xml_path data ∈ tr) ∧
    ∀ op ∈ tr, isRenameTo op installed_xml_path = false := by
  obtain ⟨doc, _, htr⟩ := Option.map_eq_some'.mp h
  subst htr
  refine ⟨by simp, ⟨render_doc doc, by simp⟩, ?_⟩
  intro op hop
  simp only [List.mem_cons, List.not_mem_nil, or_false] at hop
  rcases hop with h1 | h1 | h1 <;> subst h1 <;> rfl

/-- Counterexample to claim C2 as stated: on a concrete one-entry ledger the
trace of `_write_addons_xml` is not a write-to-temp-then-rename. -/
theorem c2_counterexample :
    ∃ tr, write_addons_xml_trace [[("type", "kart"), ("id", "k1")]] = some tr ∧
      ¬ atomic_temp_rename tr installed_xml_path := by
  cases htr : write_addons_xml_trace [[("type", "kart"), ("id", "k1")]] with
  | none =>
    have : (write_addons_xml_trace [[("type", "kart"), ("id", "k1")]]).isSome = true := by
      decide
    rw [htr] at this
    simp at this
  | some tr =>
    refine ⟨tr, rfl, fun hat => ?_⟩
    obtain ⟨op, hop, hren⟩ := hat.2
    rw [(write_addons_xml_trace_shape _ _ htr).2.2 op hop] at hren
    exact absurd hren (by simp)

/-- Claim C2, amended: `persist` is not atomic — `_write_addons_xml` writes
the serialized ledger directly to the ledger file path (open, truncate,
write), with no temporary file and no rename, so a concurrent reader of
`addons_installed.xml` can observe a partially-written ledger. -/
theorem c2_amended_persist_writes_directly (l : List Dict) (tr : List FsOp)
    (h : write_addons_xml_trace l = some tr) :
    FsOp.openTrunc installed_xml_path ∈ tr ∧
    (∃ data, FsOp.writeBytes installed_xml_path data ∈ tr) ∧
    (∀ op ∈ tr, isRenameTo op installed_xml_path = false) ∧
    ¬ atomic_temp_rename tr installed_xml_path := by
  obtain ⟨h1, h2, h3⟩ := write_addons_xml_trace_shape l tr h
  refine ⟨h1, h2, h3, fun hat => ?_⟩
  obtain ⟨op, hop, hren⟩ := hat.2
  rw [h3 op hop] at hren
  exact absurd hren (by simp)

/-- Closed instance of the amended C2 at a concrete ledger. -/
theorem c2_amended_persist_writes_directly_witness :
    FsOp.openTrunc installed_xml_path ∈
      [FsOp.openTrunc installed_xml_path,
       FsOp.writeBytes installed_xml_path
         (render_doc ⟨"addons", [("xmlns", STKNS)], [⟨"kart", [("id", "k1")]⟩]⟩),
       FsOp.closeFile installed_xml_path] ∧
    (∃ data, FsOp.writeBytes installed_xml_path data ∈
      [FsOp.openTrunc installed_xml_path,
       FsOp.writeBytes installed_xml_path
         (render_doc ⟨"addons", [("xmlns", STKNS)], [⟨"kart", [("id", "k1")]⟩]⟩),
       FsOp.closeFile installed_xml_path]) ∧
    (∀ op ∈
      [FsOp.openTrunc installed_xml_path,
       FsOp.writeBytes installed_xml_path
         (render_doc ⟨"addons", [("xmlns", STKNS)], [⟨"kart", [("id", "k1")]⟩]⟩),
       FsOp.closeFile installed_xml_path], isRenameTo op installed_xml_path = false) ∧
    ¬ atomic_temp_rename
      [FsOp.openTrunc installed_xml_path,
       FsOp.writeBytes installed_xml_path
         (render_doc ⟨"addons", [("xmlns", STKNS)], [⟨"kart", [("id", "k1")]⟩]⟩),
       FsOp.closeFile installed_xml_path] installed_xml_path :=
  c2_amended_persist_writes_directly [[("type", "kart"), ("id", "k1")]] _ rfl

/-! ## Claim C8: `install_addons` candidate selection -/

/-- `needs_install = (not installed or installed.get('installed') != 'true' or
int(installed.get('installed-revision','0')) < int(addon_data.get('revision','0')))`,
with Python's short-circuit evaluation (the revision strings are only parsed
when the first two disjuncts are false). -/
def select_candidate_needs (addon_data : Dict) (installed? : Option Dict) : Option Bool :=
  match installed? with
  | none => some true
  | some installed =>
    if aget? installed "installed" ≠ some "true" then some true
    else do
      let lr ← pyInt? (agetD installed "installed-revision" "0")
      let rr ← pyInt? (agetD addon_data "revision" "0")
      pure (decide (lr < rr))

/-- The remaining three `continue` checks of the selection loop: approved bit,
format check for non-karts, then the user filter. -/
def select_candidate_rest (install_filter : Dict → Bool) (addon_data : Dict) : Option Bool := do
  let status ← pyInt? (agetD addon_data "status" "0")
  if !(approvedFlag status) then pure false
  else if aget? addon_data "type" ≠ some "kart" then do
    let fmt ← pyInt? (agetD addon_data "format" "0")
    if fmt ≤ 5 then pure false
    else pure (install_filter addon_data)
  else pure (install_filter addon_data)

/-- Whether one catalog entry is appended to `addons_to_install`
(`some false` = some `continue` fires, `none` = a raised `ValueError`). -/
def select_candidate (install_filter : Dict → Bool) (addon_data : Dict)
    (installed? : Option Dict) : Option Bool := do
  let needs ← select_candidate_needs addon_data installed?
  if !needs then pure false else select_candidate_rest install_filter addon_data

/-- The `install_addons` selection loop over the whole catalog. -/
def install_addons_candidates (all_addons installed_addons : Assoc Dict)
    (install_filter : Dict → Bool) : Option (List Dict) :=
  all_addons.foldlM (fun acc p => do
    let b ← select_candidate install_filter p.2 (aget? installed_addons p.1)
    pure (if b then acc ++ [p.2] else acc)) []

/-- Claim-side predicate: already recorded as installed at the latest
revision (`installed='true'` with `installed-revision` at least the catalog
revision). -/
def already_installed_at_latest (addon_data : Dict) (installed? : Option Dict) : Prop :=
  ∃ installed, installed? = some installed ∧
    aget? installed "installed" = some "true" ∧
    ∃ lr rr, pyInt? (agetD installed "installed-revision" "0") = some lr ∧
      pyInt? (agetD addon_data "revision" "0") = some rr ∧ rr ≤ lr

/-- Claim-side selection predicate, written from the claim: not already
installed at the latest revision, approved bit set, format strictly above 5
for non-kart types, and the chosen filter accepts the entry. -/
def spec_selected (install_filter : Dict → Bool) (addon_data : Dict)
    (installed? : Option Dict) : Prop :=
  ¬ already_installed_at_latest addon_data installed? ∧
  (∃ st, pyInt? (agetD addon_data "status" "0") = some st ∧ approvedFlag st = true) ∧
  (aget? addon_data "type" = some "kart" ∨
   ∃ fmt, pyInt? (agetD addon_data "format" "0") = some fmt ∧ 5 < fmt) ∧
  install_filter addon_data = true

theorem select_candidate_needs_iff (addon_data : Dict) (installed? : Option Dict) (b : Bool)
    (h : select_candidate_needs addon_data installed? = some b) :
    b = false ↔ already_installed_at_latest addon_data installed? := by
  cases installed? with
  | none =>
    simp only [select_candidate_needs, Option.some_inj] at h
    subst h
    simp [already_installed_at_latest]
  | some installed =>
    by_cases hin : aget? installed "installed" = some "true"
    · simp only [select_candidate_needs, hin, ne_eq, not_true_eq_false, if_false] at h
      cases hlr : pyInt? (agetD installed "installed-revision" "0") with
      | none => rw [hlr] at h; simp at h
      | some lr =>
        rw [hlr] at h
        cases hrr : pyInt? (agetD addon_data "revision" "0") with
        | none => rw [hrr] at h; simp at h
        | some rr =>
          rw [hrr] at h
          simp only [Option.bind_eq_bind, Option.some_bind, Option.pure_def,
            Option.some_inj] at h
          subst h
          constructor
          · intro hfalse
            refine ⟨installed, rfl, hin, lr, rr, hlr, hrr, ?_⟩
            simp only [decide_eq_false_iff_not, not_lt] at hfalse
            exact hfalse
          · rintro ⟨ins2, hins2, _, lr2, rr2, hlr2, hrr2, hle⟩
            rw [Option.some_inj] at hins2
            subst hins2
            rw [hlr, Option.some_inj] at hlr2
            rw [hrr, Option.some_inj] at hrr2
            subst hlr2; subst hrr2
            simp only [decide_eq_false_iff_not, not_lt]
            exact hle
    · simp only [select_candidate_needs, hin, ne_eq, not_false_eq_true, if_true,
        Option.some_inj] at h
      subst h
      simp only [Bool.true_eq_false, false_iff]
      rintro ⟨ins2, hins2, htrue, _⟩
      rw [Option.some_inj] at hins2
      subst hins2
      exact hin htrue

theorem select_candidate_rest_iff (install_filter : Dict → Bool) (addon_data : Dict) (b : Bool)
    (h : select_candidate_rest install_filter addon_data = some b) :
    b = true ↔
      ((∃ st, pyInt? (agetD addon_data "status" "0") = some st ∧ approvedFlag st = true) ∧
       (aget? addon_data "type" = some "kart" ∨
        ∃ fmt, pyInt? (agetD addon_data "format" "0") = some fmt ∧ 5 < fmt) ∧
       install_filter addon_data = true) := by
  cases hst : pyInt? (agetD addon_data "status" "0") with
  | none => rw [select_candidate_rest, hst] at h; simp at h
  | some st =>
    rw [select_candidate_rest, hst] at h
    simp only [Option.bind_eq_bind, Option.some_bind] at h
    by_cases happ : approvedFlag st
    · rw [if_neg (by simp [happ])] at h
      by_cases hty : aget? addon_data "type" = some "kart"
      · rw [if_neg (by simp [hty]), Option.pure_def, Option.some_inj] at h
        subst h
        constructor
        · intro hf
          exact ⟨⟨st, rfl, happ⟩, Or.inl hty, hf⟩
        · rintro ⟨_, _, hf⟩
          exact hf
      · rw [if_pos (by simp [hty])] at h
        cases hfmt : pyInt? (agetD addon_data "format" "0") with
        | none => rw [hfmt] at h; simp at h
        | some fmt =>
          rw [hfmt] at h
          simp only [Option.bind_eq_bind, Option.some_bind] at h
          by_cases hle : fmt ≤ 5
          · rw [if_pos hle, Option.pure_def, Option.some_inj] at h
            subst h
            simp only [Bool.false_eq_true, false_iff]
            rintro ⟨_, hor, _⟩
            rcases hor with hk | ⟨fmt2, hfmt2, hgt⟩
            · exact hty hk
            · rw [Option.some_inj] at hfmt2
              subst hfmt2
              omega
          · rw [if_neg hle, Option.pure_def, Option.some_inj] at h
            subst h
            constructor
            · intro hf
              exact ⟨⟨st, rfl, happ⟩, Or.inr ⟨fmt, rfl, by omega⟩, hf⟩
            · rintro ⟨_, _, hf⟩
              exact hf
    · rw [if_pos (by simp [happ]), Option.pure_def, Option.some_inj] at h
      subst h
      simp only [Bool.false_eq_true, false_iff]
      rintro ⟨⟨st2, hst2, happ2⟩, _⟩
      rw [Option.some_inj] at hst2
      subst hst2
      exact happ happ2

/-- Claim C8: a catalog entry is appended to `addons_to_install` exactly when
it is not already recorded as installed at the latest revision, its status
has the approved bit `0x1` set, its `format` is strictly greater than `5`
for non-kart types, and the chosen filter predicate accepts it. -/
theorem c8_install_selection_iff (install_filter : Dict → Bool) (addon_data : Dict)
    (installed? : Option Dict) (b : Bool)
    (h : select_candidate install_filter addon_data installed? = some b) :
    b = true ↔ spec_selected install_filter addon_data installed? := by
  cases hn : select_candidate_needs addon_data installed? with
  | none => rw [select_candidate, hn] at h; simp at h
  | some nb =>
    rw [select_candidate, hn] at h
    simp only [Option.bind_eq_bind, Option.some_bind] at h
    cases nb with
    | false =>
      rw [if_pos (by simp), Option.pure_def, Option.some_inj] at h
      subst h
      simp only [Bool.false_eq_true, false_iff]
      rintro ⟨hna, _⟩
      exact hna ((select_candidate_needs_iff addon_data installed? false hn).mp rfl)
    | true =>
      rw [if_neg (by simp)] at h
      have hna : ¬ already_installed_at_latest addon_data installed? := by
        intro ha
        have := (select_candidate_needs_iff addon_data installed? true hn).mpr ha
        simp at this
      rw [select_candidate_rest_iff install_filter addon_data b h]
      unfold spec_selected
      tauto

/-- Closed instance of C8 at a concrete approved, never-installed kart. -/
theorem c8_install_selection_iff_witness :
    (true = true) ↔
      spec_selected (fun _ => true)
        [("id", "k1"), ("type", "kart"), ("status", "1"), ("revision", "3")] none :=
  c8_install_selection_iff (fun _ => true)
    [("id", "k1"), ("type", "kart"), ("status", "1"), ("revision", "3")] none true
    (by decide)

/-! ## Claim C5: the catalog dedup in `get_addons` -/

/-- One element of the remote catalog XML: its tag and attributes. -/
structure XItem where
  tag : String
  attrs : Dict
deriving DecidableEq, Repr

/-- `{'type': item.tag, **dict(item.items())}`. -/
def mkStored (it : XItem) : Dict := aupdate [("type", it.tag)] it.attrs

/-- One iteration of the `get_addons` parsing loop: skip elements without an
`id`, skip unapproved ones, then
`if int(addons_dict.setdefault(id, dict()).get('revision','-1')) <= int(item.get('revision')):`
replace the stored entry.  Note the `setdefault` inserts an *empty* dict
before the comparison, and `int(item.get('revision'))` raises (`none`) when
the attribute is missing. -/
def get_addons_step (m : Assoc Dict) (it : XItem) : Option (Assoc Dict) :=
  match aget? it.attrs "id" with
  | none => some m
  | some i => do
    let st ← pyInt? (agetD it.attrs "status" "0")
    if !(approvedFlag st) then pure m
    else
      let stored := agetD m i []
      let m1 := if (aget? m i).isSome then m else m ++ [(i, ([] : Dict))]
      do
        let ro ← pyInt? (agetD stored "revision" "-1")
        let rs ← aget? it.attrs "revision"
        let rn ← pyInt? rs
        if ro ≤ rn then pure (aset m1 i (mkStored it)) else pure m1

/-- The `get_addons` parsing loop over the whole catalog document. -/
def get_addons_fold (items : List XItem) : Option (Assoc Dict) :=
  items.foldlM get_addons_step []

/-- Whether an element passes the approved-bit test of the loop. -/
def approvedItemB (it : XItem) : Bool :=
  match pyInt? (agetD it.attrs "status" "0") with
  | some st => approvedFlag st
  | none => false

/-- An element's parsed revision (spec side). -/
def revD (it : XItem) : Int := ((aget? it.attrs "revision").bind pyInt?).getD (-1)

/-- The approved elements carrying a given id, in document order. -/
def approved_with_id (items : List XItem) (i : String) : List XItem :=
  items.filter (fun it => (aget? it.attrs "id" == some i) && approvedItemB it)

/-- Claim-side selection: among the approved elements with this id, the
later-seen element of maximum revision. -/
def kept_spec (items : List XItem) (i : String) : Option XItem :=
  let cands := approved_with_id items i
  let mx := (cands.map revD).foldl max (-1)
  (cands.filter (fun it => revD it == mx)).getLast?

theorem getLast?_mem_of_eq {α : Type} {l : List α} {a : α}
    (h : l.getLast? = some a) : a ∈ l := by
  have hm : a ∈ l.getLast? := h
  obtain ⟨hne, heq⟩ := List.mem_getLast?_eq_getLast hm
  rw [heq]
  exact List.getLast_mem hne

theorem foldl_max_init_le (l : List Int) (a : Int) : a ≤ l.foldl max a := by
  induction l generalizing a with
  | nil => simp
  | cons x xs ih =>
    simp only [List.foldl_cons]
    exact le_trans (le_max_left a x) (ih (max a x))

theorem foldl_max_mem_le (l : List Int) (a x : Int) (hx : x ∈ l) : x ≤ l.foldl max a := by
  induction l generalizing a with
  | nil => simp at hx
  | cons y ys ih =>
    simp only [List.mem_cons] at hx
    simp only [List.foldl_cons]
    rcases hx with hx | hx
    · subst hx
      exact le_trans (le_max_right a x) (foldl_max_init_le ys (max a x))
    · exact ih (max a y) hx

theorem foldl_max_eq_or_mem (l : List Int) (a : Int) :
    l.foldl max a = a ∨ l.foldl max a ∈ l := by
  induction l generalizing a with
  | nil => left; rfl
  | cons x xs ih =>
    simp only [List.foldl_cons]
    rcases ih (max a x) with h | h
    · rw [h]
      rcases max_choice a x with hm | hm
      · rw [hm]; left; rfl
      · rw [hm]; right; simp
    · right; simp [h]

theorem aget?_append_single_ne {α : Type} (m : Assoc α) {i j : String} (v : α)
    (h : j ≠ i) : aget? (m ++ [(j, v)]) i = aget? m i := by
  induction m with
  | nil => simp [aget?, h]
  | cons p rest ih =>
    by_cases hp : p.1 = i <;> simp [aget?, hp, ih]

theorem aget?_append_single_self {α : Type} (m : Assoc α) (j : String) (v : α)
    (h : aget? m j = none) : aget? (m ++ [(j, v)]) j = some v := by
  induction m with
  | nil => simp [aget?]
  | cons p rest ih =>
    by_cases hp : p.1 = j
    · simp [aget?, hp] at h
    · simp only [aget?, hp, if_neg, List.cons_append] at h ⊢
      simp [hp]
      exact ih h

theorem kept_spec_eq_some (items : List XItem) (i : String) (k : XItem)
    (h : kept_spec items i = some k) :
    k ∈ approved_with_id items i ∧
    revD k = ((approved_with_id items i).map revD).foldl max (-1) := by
  simp only [kept_spec] at h
  have hm := getLast?_mem_of_eq h
  rw [List.mem_filter] at hm
  exact ⟨hm.1, by simpa using hm.2⟩

theorem kept_spec_eq_none (items : List XItem) (i : String)
    (hb : ∀ it ∈ approved_with_id items i, -1 ≤ revD it)
    (h : kept_spec items i = none) : approved_with_id items i = [] := by
  simp only [kept_spec] at h
  rw [List.getLast?_eq_none_iff] at h
  by_contra hne
  obtain ⟨it0, hit0⟩ := List.exists_mem_of_ne_nil _ hne
  rcases foldl_max_eq_or_mem ((approved_with_id items i).map revD) (-1) with hmx | hmx
  · have h1 : revD it0 ≤ ((approved_with_id items i).map revD).foldl max (-1) :=
      foldl_max_mem_le _ _ _ (List.mem_map_of_mem _ hit0)
    rw [hmx] at h1
    have h2 : -1 ≤ revD it0 := hb it0 hit0
    have h3 : revD it0 = ((approved_with_id items i).map revD).foldl max (-1) := by omega
    have : it0 ∈ (approved_with_id items i).filter
        (fun it => revD it == ((approved_with_id items i).map revD).foldl max (-1)) := by
      rw [List.mem_filter]
      exact ⟨hit0, by simp [h3]⟩
    rw [h] at this
    simp at this
  · rw [List.mem_map] at hmx
    obtain ⟨it1, hit1, heq⟩ := hmx
    have : it1 ∈ (approved_with_id items i).filter
        (fun it => revD it == ((approved_with_id items i).map revD).foldl max (-1)) := by
      rw [List.mem_filter]
      exact ⟨hit1, by simp [heq]⟩
    rw [h] at this
    simp at this

theorem c5_fold_characterization (items : List XItem) (m : Assoc Dict)
    (h : get_addons_fold items = some m)
    (hwf : ∀ it ∈ items, (akeys it.attrs).Nodup)
    (hrevp : ∀ it ∈ items, (aget? it.attrs "id").isSome = true → approvedItemB it = true →
      ∃ rs rv, aget? it.attrs "revision" = some rs ∧ pyInt? rs = some rv ∧ -1 ≤ rv) :
    ∀ i, aget? m i = (kept_spec items i).map mkStored := by
  induction items using List.reverseRecOn generalizing m with
  | nil =>
    simp only [get_addons_fold, List.foldlM_nil, Option.pure_def, Option.some_inj] at h
    subst h
    intro i
    simp [kept_spec, approved_with_id]
  | append_singleton pre it ih =>
    rw [get_addons_fold, List.foldlM_append] at h
    cases hmp : List.foldlM get_addons_step [] pre with
    | none => rw [hmp] at h; simp at h
    | some mp =>
      rw [hmp] at h
      simp only [Option.bind_eq_bind, Option.some_bind, List.foldlM_cons, List.foldlM_nil,
        Option.pure_def, Option.bind_some] at h
      have ihmp := ih mp hmp (fun it2 h2 => hwf it2 (List.mem_append_left _ h2))
        (fun it2 h2 => hrevp it2 (List.mem_append_left _ h2))
      intro i
      cases hid : aget? it.attrs "id" with
      | none =>
        simp only [get_addons_step, hid, Option.some_inj] at h
        subst h
        rw [ihmp i]
        have hsame : approved_with_id (pre ++ [it]) i = approved_with_id pre i := by
          simp [approved_with_id, List.filter_append, hid]
        simp only [kept_spec, hsame]
      | some j =>
        cases hstp : pyInt? (agetD it.attrs "status" "0") with
        | none =>
          simp only [get_addons_step, hid, hstp, Option.bind_eq_bind, Option.none_bind] at h
          exact absurd h (by simp)
        | some st =>
          simp only [get_addons_step, hid, hstp, Option.bind_eq_bind, Option.some_bind] at h
          by_cases happ : approvedFlag st
          case neg =>
            rw [if_pos (by simp [happ]), Option.pure_def, Option.some_inj] at h
            subst h
            rw [ihmp i]
            have happB : approvedItemB it = false := by simp [approvedItemB, hstp, happ]
            have hsame : approved_with_id (pre ++ [it]) i = approved_with_id pre i := by
              simp [approved_with_id, List.filter_append, happB]
            simp only [kept_spec, hsame]
          case pos =>
            rw [if_neg (by simp [happ])] at h
            have happB : approvedItemB it = true := by simp [approvedItemB, hstp, happ]
            obtain ⟨rs, rv, hrs, hrv, hrvge⟩ :=
              hrevp it (List.mem_append_right _ (by simp)) (by simp [hid]) happB
            have hrevDit : revD it = rv := by simp [revD, hrs, hrv]
            have hbnd : ∀ it2 ∈ approved_with_id pre j, -1 ≤ revD it2 := by
              intro it2 hit2
              rw [approved_with_id, List.mem_filter] at hit2
              have hcnd := hit2.2
              simp only [Bool.and_eq_true, beq_iff_eq] at hcnd
              obtain ⟨rs2, rv2, hrs2, hrv2, hge2⟩ := hrevp it2
                (List.mem_append_left _ hit2.1) (by simp [hcnd.1]) hcnd.2
              simp [revD, hrs2, hrv2, hge2]
            cases hkept : kept_spec pre j with
            | none =>
              have hcands : approved_with_id pre j = [] := kept_spec_eq_none pre j hbnd hkept
              have hmpj : aget? mp j = none := by rw [ihmp j, hkept]; rfl
              have hsto : agetD (agetD mp j []) "revision" "-1" = "-1" := by
                simp [agetD, hmpj, aget?]
              rw [hsto, show pyInt? "-1" = some (-1) from by decide, hrs] at h
              simp only [Option.bind_eq_bind, Option.some_bind] at h
              rw [hrv] at h
              simp only [Option.bind_eq_bind, Option.some_bind] at h
              rw [if_pos hrvge, hmpj] at h
              simp only [Option.isSome_none, Bool.false_eq_true, if_false,
                Option.pure_def, Option.some_inj] at h
              subst h
              by_cases hij : i = j
              · subst hij
                rw [aget?_aset_self]
                have hcands2 : approved_with_id (pre ++ [it]) i = [it] := by
                  simp [approved_with_id, List.filter_append, hid, happB]
                  simpa [approved_with_id] using hcands
                simp [kept_spec, hcands2, hrevDit, max_eq_right hrvge]
              · rw [aget?_aset_ne _ _ (Ne.symm hij), aget?_append_single_ne mp _ (Ne.symm hij),
                  ihmp i]
                have hsame : approved_with_id (pre ++ [it]) i = approved_with_id pre i := by
                  simp [approved_with_id, List.filter_append, hid, Ne.symm hij]
                simp only [kept_spec, hsame]
            | some k =>
              obtain ⟨hk1, hk2⟩ := kept_spec_eq_some pre j k hkept
              rw [approved_with_id, List.mem_filter] at hk1
              have hkcond := hk1.2
              simp only [Bool.and_eq_true, beq_iff_eq] at hkcond
              obtain ⟨ks, kv, hks, hkv, hkvge⟩ := hrevp k
                (List.mem_append_left _ hk1.1) (by simp [hkcond.1]) hkcond.2
              have hrevDk : revD k = kv := by simp [revD, hks, hkv]
              have hmpj : aget? mp j = some (mkStored k) := by rw [ihmp j, hkept]; rfl
              have hstorev : aget? (mkStored k) "revision" = some ks := by
                rw [mkStored, aget?_aupdate_nodup _ _ _ (hwf k (List.mem_append_left _ hk1.1)),
                  hks]
              have hsto : agetD (agetD mp j []) "revision" "-1" = ks := by
                simp [agetD, hmpj, hstorev]
              rw [hsto, hkv, hrs] at h
              simp only [Option.bind_eq_bind, Option.some_bind] at h
              rw [hrv] at h
              simp only [Option.bind_eq_bind, Option.some_bind] at h
              rw [hmpj] at h
              simp only [Option.isSome_some, if_true] at h
              by_cases hle : kv ≤ rv
              · rw [if_pos hle, Option.pure_def, Option.some_inj] at h
                subst h
                by_cases hij : i = j
                · subst hij
                  rw [aget?_aset_self]
                  have hcands2 : approved_with_id (pre ++ [it]) i =
                      approved_with_id pre i ++ [it] := by
                    simp [approved_with_id, List.filter_append, hid, happB]
                  simp only [kept_spec, hcands2, List.map_append, List.foldl_append,
                    List.map_cons, List.map_nil, List.foldl_cons, List.foldl_nil]
                  rw [← hk2, hrevDk, hrevDit, max_eq_right hle, List.filter_append]
                  simp only [List.filter_cons, List.filter_nil, hrevDit, beq_self_eq_true,
                    if_true]
                  rw [List.getLast?_concat]
                  rfl
                · rw [aget?_aset_ne _ _ (Ne.symm hij), ihmp i]
                  have hsame : approved_with_id (pre ++ [it]) i = approved_with_id pre i := by
                    simp [approved_with_id, List.filter_append, hid, Ne.symm hij]
                  simp only [kept_spec, hsame]
              · rw [if_neg hle, Option.pure_def, Option.some_inj] at h
                subst h
                by_cases hij : i = j
                · subst hij
                  rw [hmpj]
                  have hcands2 : approved_with_id (pre ++ [it]) i =
                      approved_with_id pre i ++ [it] := by
                    simp [approved_with_id, List.filter_append, hid, happB]
                  have hne2 : (revD it == ((approved_with_id pre i).map revD).foldl max (-1))
                      = false := by
                    rw [hrevDit, ← hk2, hrevDk]
                    simp only [beq_eq_false_iff_ne, ne_eq]
                    omega
                  simp only [kept_spec, hcands2, List.map_append, List.foldl_append,
                    List.map_cons, List.map_nil, List.foldl_cons, List.foldl_nil]
                  rw [hrevDit, show max (((approved_with_id pre i).map revD).foldl max (-1)) rv
                      = ((approved_with_id pre i).map revD).foldl max (-1) from by
                        rw [← hk2, hrevDk] at *; omega]
                  rw [List.filter_append]
                  simp only [List.filter_cons, List.filter_nil, hne2, Bool.false_eq_true,
                    if_false, List.append_nil]
                  simp only [kept_spec] at hkept
                  rw [hkept]
                  rfl
                · rw [ihmp i]
                  have hsame : approved_with_id (pre ++ [it]) i = approved_with_id pre i := by
                    simp [approved_with_id, List.filter_append, hid, Ne.symm hij]
                  simp only [kept_spec, hsame]

/-- Counterexample to claim C5 as stated: a document with two approved
elements for id `x`, revisions `-3` and `-2`, makes the `'-1'` sentinel in
`int(addons_dict.setdefault(id, dict()).get('revision','-1'))` reject both,
so the mapping keeps the empty placeholder dict inserted by `setdefault`
instead of the approved entry with the maximum revision. -/
theorem c5_counterexample :
    get_addons_fold
      [⟨"track", [("id", "x"), ("status", "1"), ("revision", "-3")]⟩,
       ⟨"track", [("id", "x"), ("status", "1"), ("revision", "-2")]⟩] =
      some [("x", [])] ∧
    approvedItemB ⟨"track", [("id", "x"), ("status", "1"), ("revision", "-3")]⟩ = true ∧
    approvedItemB ⟨"track", [("id", "x"), ("status", "1"), ("revision", "-2")]⟩ = true ∧
    aget? [("x", ([] : Dict))] "x" = some [] ∧
    ([] : Dict) ≠ mkStored ⟨"track", [("id", "x"), ("status", "1"), ("revision", "-2")]⟩ ∧
    ([] : Dict) ≠ mkStored ⟨"track", [("id", "x"), ("status", "1"), ("revision", "-3")]⟩ := by
  decide

/-- Claim C5, amended: for every remote catalog document whose approved
id-carrying elements each have a `revision` attribute parsing to an integer
at least `-1` (in particular, any document with nonnegative revisions), the
mapping built by `get_addons` keeps for each id exactly the approved element
with the maximum revision, the later-seen element winning ties; without that
bound the `'-1'` sentinel of the dedup comparison can leave an empty
placeholder entry instead (see the counterexample). -/
theorem c5_amended_max_revision_kept (items : List XItem) (m : Assoc Dict)
    (h : get_addons_fold items = some m)
    (hwf : ∀ it ∈ items, (akeys it.attrs).Nodup)
    (hrevp : ∀ it ∈ items, (aget? it.attrs "id").isSome = true → approvedItemB it = true →
      ∃ rs rv, aget? it.attrs "revision" = some rs ∧ pyInt? rs = some rv ∧ -1 ≤ rv) :
    ∀ i, aget? m i = (kept_spec items i).map mkStored :=
  c5_fold_characterization items m h hwf hrevp

/-- Closed instance of the amended C5: a duplicate id with a revision tie is
resolved to the later-seen approved element. -/
theorem c5_amended_max_revision_kept_witness :
    aget? [("x", [("type", "track"), ("id", "x"), ("status", "1"), ("revision", "2")])] "x" =
      (kept_spec
        [⟨"track", [("id", "x"), ("status", "1"), ("revision", "1")]⟩,
         ⟨"track", [("id", "x"), ("status", "1"), ("revision", "2")]⟩] "x").map mkStored :=
  c5_amended_max_revision_kept
    [⟨"track", [("id", "x"), ("status", "1"), ("revision", "1")]⟩,
     ⟨"track", [("id", "x"), ("status", "1"), ("revision", "2")]⟩]
    [("x", [("type", "track"), ("id", "x"), ("status", "1"), ("revision", "2")])]
    (by decide) (by decide)
    (by
      intro it hit
      simp only [List.mem_cons, List.not_mem_nil, or_false] at hit
      rcases hit with h1 | h1 <;> subst h1 <;> intro _ _
      · exact ⟨"1", 1, rfl, by decide, by decide⟩
      · exact ⟨"2", 2, rfl, by decide, by decide⟩)
    "x"

/-! ## Claim C1: the concurrent installer's ledger updates

Each worker's ledger mutate-and-persist step runs under the single
process-wide `threading.Lock`, so the step is atomic; an interleaving of `W`
workers over `N` candidates is therefore a permutation of the `N` atomic
steps.  `write_installed_addons` inside the lock only reads the shared
dictionaries (`warn` defaults to false, so no validation runs), so the
in-memory ledger evolves exactly by `install_lock_step`. -/

/-- The lock-protected section of `download_and_extract_addons`:
`installed_addons.setdefault(id, dict())['installed'] = 'true'` followed by
`installed_addons[id]['installed-revision'] = addon_data['revision']`
(`none` models a `KeyError` on a missing `id` or `revision` key). -/
def install_lock_step (st : Assoc Dict) (addon_data : Dict) : Option (Assoc Dict) := do
  let i ← aget? addon_data "id"
  let rv ← aget? addon_data "revision"
  let st1 := if (aget? st i).isSome then st else st ++ [(i, ([] : Dict))]
  let e := agetD st1 i []
  pure (aset st1 i (aset (aset e "installed" "true") "installed-revision" rv))

/-- One interleaving of the successful workers' lock-protected sections. -/
def run_install_schedule (st : Assoc Dict) (order : List Dict) : Option (Assoc Dict) :=
  order.foldlM install_lock_step st

theorem mem_akeys_of_aget? {α : Type} {d : Assoc α} {k : String} {v : α}
    (h : aget? d k = some v) : k ∈ akeys d := by
  induction d with
  | nil => simp [aget?] at h
  | cons p rest ih =>
    by_cases hp : p.1 = k
    · simp [akeys, hp]
    · simp only [aget?, hp, if_neg, if_false] at h
      simp only [akeys, List.map_cons, List.mem_cons]
      right
      exact ih (by simpa [aget?, hp] using h)

theorem aget?_some_mem {α : Type} {d : Assoc α} {k : String} {v : α}
    (h : aget? d k = some v) : (k, v) ∈ d := by
  induction d with
  | nil => simp [aget?] at h
  | cons p rest ih =>
    by_cases hp : p.1 = k
    · obtain ⟨k1, v1⟩ := p
      simp only at hp
      subst hp
      simp [aget?] at h
      subst h
      simp
    · simp only [aget?, hp, if_false] at h
      simp only [List.mem_cons]
      right
      exact ih (by simpa [aget?, hp] using h)

theorem aget?_of_mem_nodup {α : Type} {d : Assoc α} {p : String × α}
    (hnd : (akeys d).Nodup) (h : p ∈ d) : aget? d p.1 = some p.2 := by
  induction d with
  | nil => simp at h
  | cons q rest ih =>
    simp only [akeys, List.map_cons, List.nodup_cons] at hnd
    simp only [List.mem_cons] at h
    rcases h with h | h
    · subst h
      simp [aget?]
    · have hne : q.1 ≠ p.1 := by
        intro he
        exact hnd.1 (he ▸ (List.mem_map_of_mem _ h))
      simp only [aget?, hne, if_false]
      exact ih hnd.2 h

theorem aget?_isSome_of_mem_akeys {α : Type} {d : Assoc α} {k : String}
    (h : k ∈ akeys d) : (aget? d k).isSome = true := by
  induction d with
  | nil => simp [akeys] at h
  | cons p rest ih =>
    by_cases hp : p.1 = k
    · simp [aget?, hp]
    · simp only [akeys, List.map_cons, List.mem_cons] at h
      rcases h with h | h
      · exact absurd h.symm hp
      · simp only [aget?, hp, if_false]
        exact ih h

theorem run_install_lemma : ∀ (order : List Dict) (st : Assoc Dict),
    (∀ c ∈ order, (aget? c "id").isSome = true ∧ (aget? c "revision").isSome = true) →
    ((order.map (fun c => agetD c "id" "")).Nodup) →
    ∃ stf, run_install_schedule st order = some stf ∧
      (∀ i, (∀ c ∈ order, aget? c "id" ≠ some i) → aget? stf i = aget? st i) ∧
      (∀ c ∈ order, ∀ i, aget? c "id" = some i →
        aget? stf i = some (aset (aset (agetD st i []) "installed" "true")
          "installed-revision" (agetD c "revision" ""))) ∧
      ((akeys st).Nodup → (akeys stf).Nodup) ∧
      (∀ i, i ∈ akeys stf ↔ (i ∈ akeys st ∨ ∃ c ∈ order, aget? c "id" = some i)) := by
  intro order
  induction order with
  | nil =>
    intro st _ _
    exact ⟨st, rfl, fun i _ => rfl, by simp, fun h => h, fun i => by simp⟩
  | cons c rest ih =>
    intro st hids hnodup
    obtain ⟨hidc, hrvc⟩ := hids c (by simp)
    obtain ⟨i0, hi0⟩ := Option.isSome_iff_exists.mp hidc
    obtain ⟨rv0, hrv0⟩ := Option.isSome_iff_exists.mp hrvc
    set st1 := if (aget? st i0).isSome then st else st ++ [(i0, ([] : Dict))] with hst1
    set newE := aset (aset (agetD st1 i0 []) "installed" "true") "installed-revision" rv0
      with hnewE
    have hstep : install_lock_step st c = some (aset st1 i0 newE) := by
      rw [install_lock_step, hi0, hrv0]
      rfl
    have hget1 : ∀ i, i ≠ i0 → aget? st1 i = aget? st i := by
      intro i hne
      rw [hst1]
      split
      · rfl
      · exact aget?_append_single_ne st _ (Ne.symm hne)
    have hnoneCase : ∀ hs : ¬ (aget? st i0).isSome = true, aget? st i0 = none := by
      intro hs
      cases hx : aget? st i0 with
      | none => rfl
      | some v => rw [hx] at hs; simp at hs
    have hgetd1 : agetD st1 i0 [] = agetD st i0 [] := by
      rw [hst1]
      split
      · rfl
      · rename_i hs
        have hn := hnoneCase hs
        rw [agetD, agetD, hn, aget?_append_single_self st i0 _ hn]
        rfl
    have hmem1 : i0 ∈ akeys st1 := by
      rw [hst1]
      split
      · rename_i hs
        obtain ⟨v, hv⟩ := Option.isSome_iff_exists.mp hs
        exact mem_akeys_of_aget? hv
      · simp [akeys]
    have hnodup2 := List.nodup_cons.mp hnodup
    have hi0head : agetD c "id" "" = i0 := by simp [agetD, hi0]
    have hi0notin : ∀ c2 ∈ rest, aget? c2 "id" ≠ some i0 := by
      intro c2 hc2 he
      refine hnodup2.1 ?_
      simp only [List.mem_map]
      exact ⟨c2, hc2, by simp [agetD, he, hi0]⟩
    obtain ⟨stf, hrun, huntouched, hentry, hnodupk, hmem⟩ :=
      ih (aset st1 i0 newE) (fun c2 h2 => hids c2 (by simp [h2])) hnodup2.2
    have hkeys2 : ∀ i, (i ∈ akeys (aset st1 i0 newE) ↔ i ∈ akeys st ∨ i = i0) := by
      intro i
      rw [akeys_aset_mem _ hmem1, hst1]
      split
      · rename_i hs
        constructor
        · intro hm; left; exact hm
        · rintro (hm | hm)
          · exact hm
          · subst hm
            obtain ⟨v, hv⟩ := Option.isSome_iff_exists.mp hs
            exact mem_akeys_of_aget? hv
      · simp [akeys, List.map_append]
    refine ⟨stf, ?_, ?_, ?_, ?_, ?_⟩
    · rw [run_install_schedule, List.foldlM_cons, hstep]
      simpa [run_install_schedule] using hrun
    · intro i hnot
      have hne : i ≠ i0 := fun he => hnot c (by simp) (he ▸ hi0)
      rw [huntouched i (fun c2 h2 => hnot c2 (by simp [h2])),
        aget?_aset_ne _ _ (Ne.symm hne), hget1 i hne]
    · intro c2 hc2 i hc2i
      rcases List.mem_cons.mp hc2 with he | he
      · subst he
        rw [hi0] at hc2i
        rw [Option.some_inj] at hc2i
        subst hc2i
        rw [huntouched i0 hi0notin, aget?_aset_self, hnewE, hgetd1]
        have : agetD c2 "revision" "" = rv0 := by simp [agetD, hrv0]
        rw [this]
      · have hnei : i ≠ i0 := by
          intro hei
          subst hei
          exact hi0notin c2 he hc2i
        rw [hentry c2 he i hc2i]
        have harg : agetD (aset st1 i0 newE) i [] = agetD st i [] := by
          simp [agetD, aget?_aset_ne _ _ (Ne.symm hnei), hget1 i hnei]
        rw [harg]
    · intro hnd
      apply hnodupk
      rw [akeys_aset_mem _ hmem1, hst1]
      split
      · exact hnd
      · rename_i hs
        have hn := hnoneCase hs
        have hnotmem : i0 ∉ akeys st := by
          intro hm
          have hsm := aget?_isSome_of_mem_akeys hm
          rw [hn] at hsm
          simp at hsm
        simp only [akeys, List.map_append] at *
        simp [List.nodup_append, hnd, hnotmem]
    · intro i
      rw [hmem i]
      have hk := hkeys2 i
      constructor
      · rintro (hm | hm)
        · rcases hk.mp hm with h1 | h1
          · left; exact h1
          · subst h1
            right
            exact ⟨c, by simp, hi0⟩
        · obtain ⟨c2, hc2, hc2i⟩ := hm
          right
          exact ⟨c2, by simp [hc2], hc2i⟩
      · rintro (hm | hm)
        · left
          exact hk.mpr (Or.inl hm)
        · obtain ⟨c2, hc2, hc2i⟩ := hm
          rcases List.mem_cons.mp hc2 with he | he
          · subst he
            have hii : i = i0 := by
              rw [hi0] at hc2i
              exact (Option.some_inj.mp hc2i).symm
            left
            exact hk.mpr (Or.inr hii)
          · right
            exact ⟨c2, he, hc2i⟩

/-- Claim C1: for any interleaving (permutation) of the N candidates' atomic
lock-protected ledger updates, starting from a ledger with no entry marked
installed, every candidate's id ends installed with `installed-revision`
equal to that candidate's revision, no update is lost, and the final ledger
holds exactly N entries with `installed='true'`. -/
theorem c1_concurrent_installer_no_lost_updates
    (cands order : List Dict) (st0 : Assoc Dict)
    (hperm : order.Perm cands)
    (hids : ∀ c ∈ cands, (aget? c "id").isSome = true ∧ (aget? c "revision").isSome = true)
    (hnodup : (cands.map (fun c => agetD c "id" "")).Nodup)
    (hkeys : (akeys st0).Nodup)
    (hnone : ∀ p ∈ st0, aget? p.2 "installed" ≠ some "true") :
    ∃ stf, run_install_schedule st0 order = some stf ∧
      (∀ c ∈ cands, ∀ i, aget? c "id" = some i →
        ∃ e, aget? stf i = some e ∧ aget? e "installed" = some "true" ∧
          aget? e "installed-revision" = aget? c "revision") ∧
      (stf.filter (fun p => aget? p.2 "installed" == some "true")).length = cands.length := by
  have hids' : ∀ c ∈ order, (aget? c "id").isSome = true ∧ (aget? c "revision").isSome = true :=
    fun c hc => hids c (hperm.mem_iff.mp hc)
  have hnodup' : ((order.map (fun c => agetD c "id" "")).Nodup) :=
    ((hperm.map (fun c => agetD c "id" "")).nodup_iff).mpr hnodup
  obtain ⟨stf, hrun, huntouched, hentry, hnodupk, hmem⟩ :=
    run_install_lemma order st0 hids' hnodup'
  refine ⟨stf, hrun, ?_, ?_⟩
  · intro c hc i hci
    have hco : c ∈ order := hperm.mem_iff.mpr hc
    rw [hentry c hco i hci]
    refine ⟨_, rfl, ?_, ?_⟩
    · rw [aget?_aset_ne _ _ (by decide), aget?_aset_self]
    · rw [aget?_aset_self]
      obtain ⟨rv, hrv⟩ := Option.isSome_iff_exists.mp (hids c hc).2
      rw [hrv]
      simp [agetD, hrv]
  · have hkeysf : (akeys stf).Nodup := hnodupk hkeys
    have hchar : ∀ i, i ∈ (stf.filter (fun p => aget? p.2 "installed" == some "true")).map (·.1)
        ↔ i ∈ cands.map (fun c => agetD c "id" "") := by
      intro i
      constructor
      · intro hm
        rw [List.mem_map] at hm
        obtain ⟨p, hp, hpi⟩ := hm
        subst hpi
        rw [List.mem_filter] at hp
        have hlook : aget? stf p.1 = some p.2 := aget?_of_mem_nodup hkeysf hp.1
        have hPp : aget? p.2 "installed" = some "true" := by simpa using hp.2
        by_contra hnc
        have hno : ∀ c ∈ order, aget? c "id" ≠ some p.1 := by
          intro c hc he
          apply hnc
          rw [List.mem_map]
          exact ⟨c, hperm.mem_iff.mp hc, by simp [agetD, he]⟩
        have hun := huntouched p.1 hno
        rw [hlook] at hun
        exact hnone _ (aget?_some_mem hun.symm) hPp
      · intro hm
        rw [List.mem_map] at hm
        obtain ⟨c, hc, hci⟩ := hm
        obtain ⟨ic, hic⟩ := Option.isSome_iff_exists.mp (hids c hc).1
        have hic2 : ic = i := by rw [← hci]; simp [agetD, hic]
        subst hic2
        have hco : c ∈ order := hperm.mem_iff.mpr hc
        have hent := hentry c hco ic hic
        rw [List.mem_map]
        refine ⟨(ic, aset (aset (agetD st0 ic []) "installed" "true")
          "installed-revision" (agetD c "revision" "")), ?_, rfl⟩
        rw [List.mem_filter]
        refine ⟨aget?_some_mem hent, ?_⟩
        simp only [beq_iff_eq]
        rw [aget?_aset_ne _ _ (by decide), aget?_aset_self]
    have hnd1 : ((stf.filter (fun p => aget? p.2 "installed" == some "true")).map (·.1)).Nodup :=
      List.Nodup.sublist (List.Sublist.map _ (List.filter_sublist stf)) hkeysf
    have hpermIds := (List.perm_ext_iff_of_nodup hnd1 hnodup).mpr hchar
    have hlen := hpermIds.length_eq
    rw [List.length_map, List.length_map] at hlen
    exact hlen

/-- Closed instance of C1: two candidates installed under the reversed
interleaving both land in the ledger with their revisions. -/
theorem c1_concurrent_installer_no_lost_updates_witness :
    ∃ stf, run_install_schedule []
        [[("id", "t2"), ("revision", "7")], [("id", "t1"), ("revision", "3")]] = some stf ∧
      (∀ c ∈ [[("id", "t1"), ("revision", "3")], [("id", "t2"), ("revision", "7")]],
        ∀ i, aget? c "id" = some i →
        ∃ e, aget? stf i = some e ∧ aget? e "installed" = some "true" ∧
          aget? e "installed-revision" = aget? c "revision") ∧
      (stf.filter (fun p => aget? p.2 "installed" == some "true")).length =
        [[("id", "t1"), ("revision", "3")], [("id", "t2"), ("revision", "7")]].length :=
  c1_concurrent_installer_no_lost_updates
    [[("id", "t1"), ("revision", "3")], [("id", "t2"), ("revision", "7")]]
    [[("id", "t2"), ("revision", "7")], [("id", "t1"), ("revision", "3")]]
    [] (by decide) (by decide) (by decide) (by decide) (by decide)

/-! ## Claim C9: persist–load–persist stability -/

theorem aset_append_of_not_mem {α : Type} {m : Assoc α} {k : String} (v : α)
    (h : k ∉ akeys m) : aset m k v = m ++ [(k, v)] := by
  induction m with
  | nil => rfl
  | cons p rest ih =>
    simp only [akeys, List.map_cons, List.mem_cons] at h
    push_neg at h
    simp only [aset, Ne.symm h.1, if_false, List.cons_append]
    rw [ih (by simpa [akeys] using h.2)]

theorem aupdate_append_of_disjoint {α : Type} :
    ∀ (l b : Assoc α), (akeys l).Nodup → (∀ k ∈ akeys l, k ∉ akeys b) →
    aupdate b l = b ++ l := by
  intro l
  induction l with
  | nil => intro b _ _; simp [aupdate]
  | cons p rest ih =>
    intro b hnd hdisj
    simp only [akeys, List.map_cons, List.nodup_cons] at hnd
    have hstep : aupdate b (p :: rest) = aupdate (aset b p.1 p.2) rest := rfl
    have hp1 : p.1 ∉ akeys b := hdisj p.1 (by simp [akeys])
    rw [hstep, aset_append_of_not_mem _ hp1]
    rw [ih (b ++ [(p.1, p.2)]) hnd.2 ?_]
    · simp
    · intro k hk
      rw [akeys, List.map_append]
      simp only [List.mem_append, not_or]
      refine ⟨fun hm => hdisj k (by
        simp only [akeys, List.map_cons, List.mem_cons]
        right
        simpa [akeys] using hk) hm, ?_⟩
      simp only [List.map_cons, List.map_nil, List.mem_singleton]
      intro he
      exact hnd.1 (he ▸ hk)

theorem aset_comm {α : Type} {k1 k2 : String} (h : k1 ≠ k2) :
    ∀ (b : Assoc α) (v1 v2 : α), (aget? b k1).isSome = true → (aget? b k2).isSome = true →
    aset (aset b k1 v1) k2 v2 = aset (aset b k2 v2) k1 v1 := by
  intro b
  induction b with
  | nil =>
    intro v1 v2 h1 _
    simp [aget?] at h1
  | cons p rest ih =>
    intro v1 v2 hs1 hs2
    by_cases h1 : p.1 = k1
    · subst h1
      simp [aset, h, Ne.symm h]
    · by_cases h2 : p.1 = k2
      · subst h2
        simp [aset, h, Ne.symm h, h1]
      · simp only [aset, h1, h2, if_false]
        rw [ih v1 v2 (by simpa [aget?, h1] using hs1) (by simpa [aget?, h2] using hs2)]

theorem mapM_eq_some_of_forall {α β : Type} (f : α → Option β) (g : α → β) :
    ∀ (l : List α), (∀ x ∈ l, f x = some (g x)) → l.mapM f = some (l.map g) := by
  intro l
  induction l with
  | nil => intro _; rfl
  | cons x rest ih =>
    intro h
    rw [List.mapM_cons, h x (by simp), ih (fun y hy => h y (by simp [hy]))]
    rfl

theorem forall_of_mapM_eq_some {α β : Type} (f : α → Option β) :
    ∀ (l : List α) (l2 : List β), l.mapM f = some l2 → ∀ x ∈ l, ∃ y, f x = some y := by
  intro l
  induction l with
  | nil => intro l2 _ x hx; simp at hx
  | cons a rest ih =>
    intro l2 h x hx
    rw [List.mapM_cons] at h
    cases hfa : f a with
    | none => rw [hfa] at h; simp at h
    | some y =>
      rw [hfa] at h
      simp only [Option.bind_eq_bind, Option.some_bind] at h
      cases hrest : rest.mapM f with
      | none => rw [hrest] at h; simp at h
      | some l3 =>
        rcases List.mem_cons.mp hx with he | he
        · exact ⟨y, he ▸ hfa⟩
        · exact ih l3 hrest x he

/-- Normal form of a Python `dict.update` whose argument only carries the
`installed` and `installed-revision` keys (both present in the target). -/
theorem aupdate_overlay_eq {b l : Dict} {x0 y0 : String}
    (hnd : (akeys l).Nodup) (hov : ∀ p ∈ l, isOverlayKey p = true)
    (hb1 : aget? b "installed" = some x0)
    (hb2 : aget? b "installed-revision" = some y0) :
    aupdate b l = aset (aset b "installed" (agetD l "installed" x0))
      "installed-revision" (agetD l "installed-revision" y0) := by
  have hkey : ∀ p ∈ l, p.1 = "installed" ∨ p.1 = "installed-revision" := by
    intro p hp
    simpa [isOverlayKey, Bool.or_eq_true, beq_iff_eq] using hov p hp
  match l with
  | [] =>
    simp only [aupdate, List.foldl_nil, agetD, aget?_nil, Option.getD_none]
    rw [aset_eq_of_aget? hb1, aset_eq_of_aget? hb2]
  | [p] =>
    rcases hkey p (by simp) with hp | hp
    · obtain ⟨k, v⟩ := p
      simp only at hp
      subst hp
      show aset b "installed" v = _
      have hr : aget? (aset b "installed" v) "installed-revision" = some y0 := by
        rw [aget?_aset_ne _ _ (by decide)]
        exact hb2
      rw [show agetD [("installed", v)] "installed" x0 = v from by simp [agetD, aget?],
        show agetD [("installed", v)] "installed-revision" y0 = y0 from by
          simp [agetD, aget?],
        aset_eq_of_aget? hr]
    · obtain ⟨k, v⟩ := p
      simp only at hp
      subst hp
      show aset b "installed-revision" v = _
      rw [show agetD [("installed-revision", v)] "installed" x0 = x0 from by
          simp [agetD, aget?],
        show agetD [("installed-revision", v)] "installed-revision" y0 = v from by
          simp [agetD, aget?],
        aset_eq_of_aget? hb1]
  | p :: q :: rest2 =>
    have hpq : p.1 ≠ q.1 := by
      simp only [akeys, List.map_cons, List.nodup_cons, List.mem_cons] at hnd
      exact fun he => hnd.1 (Or.inl he)
    have hrest2 : rest2 = [] := by
      cases rest2 with
      | nil => rfl
      | cons s rest3 =>
        exfalso
        simp only [akeys, List.map_cons, List.nodup_cons, List.mem_cons] at hnd
        have hs := hkey s (by simp)
        have hp := hkey p (by simp)
        have hq := hkey q (by simp)
        have h1 : p.1 ≠ s.1 := fun he => hnd.1 (Or.inr (Or.inl he))
        have h2 : q.1 ≠ s.1 := fun he => hnd.2.1 (Or.inl he)
        rcases hp with hp | hp <;> rcases hq with hq | hq <;> rcases hs with hs | hs <;>
          simp_all
    subst hrest2
    rcases hkey p (by simp) with hp | hp <;> rcases hkey q (by simp) with hq | hq
    · exact absurd (hp.trans hq.symm) hpq
    · obtain ⟨k1, v1⟩ := p
      obtain ⟨k2, v2⟩ := q
      simp only at hp hq
      subst hp; subst hq
      show aset (aset b "installed" v1) "installed-revision" v2 = _
      rw [show agetD [("installed", v1), ("installed-revision", v2)] "installed" x0 = v1
          from by simp [agetD, aget?],
        show agetD [("installed", v1), ("installed-revision", v2)] "installed-revision" y0 = v2
          from by simp [agetD, aget?]]
    · obtain ⟨k1, v1⟩ := p
      obtain ⟨k2, v2⟩ := q
      simp only at hp hq
      subst hp; subst hq
      show aset (aset b "installed-revision" v1) "installed" v2 = _
      rw [show agetD [("installed-revision", v1), ("installed", v2)] "installed" x0 = v2
          from by simp [agetD, aget?],
        show agetD [("installed-revision", v1), ("installed", v2)] "installed-revision" y0 = v1
          from by simp [agetD, aget?]]
      rw [aset_comm (by decide) b v1 v2 (by simp [hb2]) (by simp [hb1])]
    · exact absurd (hp.trans hq.symm) hpq

theorem build_addon_metadata_inv {a inst e : Dict}
    (hb : build_addon_metadata a inst = some e) :
    ∃ nm i ds st dt sz rv ty,
      aget? a "name" = some nm ∧ aget? a "id" = some i ∧ aget? a "designer" = some ds ∧
      aget? a "status" = some st ∧ aget? a "date" = some dt ∧ aget? a "size" = some sz ∧
      aget? a "revision" = some rv ∧ aget? a "type" = some ty ∧
      e = aupdate (addonMetadataBase nm i ds st dt sz rv
            (lastSlashComponent (agetD a "image" "")) ty) (inst.filter isOverlayKey) := by
  cases h1 : aget? a "name" with
  | none => simp [build_addon_metadata, h1] at hb
  | some nm =>
    cases h2 : aget? a "id" with
    | none => simp [build_addon_metadata, h1, h2] at hb
    | some i =>
      cases h3 : aget? a "designer" with
      | none => simp [build_addon_metadata, h1, h2, h3] at hb
      | some ds =>
        cases h4 : aget? a "status" with
        | none => simp [build_addon_metadata, h1, h2, h3, h4] at hb
        | some st =>
          cases h5 : aget? a "date" with
          | none => simp [build_addon_metadata, h1, h2, h3, h4, h5] at hb
          | some dt =>
            cases h6 : aget? a "size" with
            | none => simp [build_addon_metadata, h1, h2, h3, h4, h5, h6] at hb
            | some sz =>
              cases h7 : aget? a "revision" with
              | none => simp [build_addon_metadata, h1, h2, h3, h4, h5, h6, h7] at hb
              | some rv =>
                cases h8 : aget? a "type" with
                | none => simp [build_addon_metadata, h1, h2, h3, h4, h5, h6, h7, h8] at hb
                | some ty =>
                  rw [build_addon_metadata_some a inst nm i ds st dt sz rv ty
                    h1 h2 h3 h4 h5 h6 h7 h8, Option.some_inj] at hb
                  exact ⟨nm, i, ds, st, dt, sz, rv, ty, rfl, rfl, rfl, rfl, rfl, rfl,
                    rfl, rfl, hb.symm⟩

/-- The tag an entry serializes under. -/
def tyD (e : Dict) : String := (aget? e "type").getD ""

/-- The element an entry serializes to (total form of `elem_of_entry`). -/
def elemD (e : Dict) : XElem := ⟨tyD e, e.filter (fun p => !(p.1 == "type"))⟩

/-- The dictionary `get_installed_addons` reconstructs from a serialized
entry: `{'type': tag, **attrs}`. -/
def normalizeEntry (e : Dict) : Dict :=
  aupdate [("type", tyD e)] (e.filter (fun p => !(p.1 == "type")))

theorem elem_of_entry_eq_some {e : Dict} {ty : String} (h : aget? e "type" = some ty) :
    elem_of_entry e = some (elemD e) := by
  simp [elem_of_entry, h, elemD, tyD]

theorem normalizeEntry_cons {e : Dict} {ty : String} (hty : aget? e "type" = some ty)
    (hnd : (akeys e).Nodup) :
    normalizeEntry e = ("type", ty) :: e.filter (fun p => !(p.1 == "type")) := by
  rw [normalizeEntry]
  have hfnd : (akeys (e.filter (fun p => !(p.1 == "type")))).Nodup := akeys_filter_nodup hnd
  have hdisj : ∀ k ∈ akeys (e.filter (fun p => !(p.1 == "type"))), k ∉ akeys [("type", ty)] := by
    intro k hk
    simp only [akeys, List.mem_map] at hk
    obtain ⟨p, hp, hpk⟩ := hk
    rw [List.mem_filter] at hp
    simp only [akeys, List.map_cons, List.map_nil, List.mem_singleton]
    intro he
    have hp2 := hp.2
    rw [hpk, he] at hp2
    simp at hp2
  rw [show tyD e = ty from by simp [tyD, hty], aupdate_append_of_disjoint _ _ hfnd hdisj]
  rfl

theorem filter_type_of_normalize {e : Dict} {ty : String} (hty : aget? e "type" = some ty)
    (hnd : (akeys e).Nodup) :
    (normalizeEntry e).filter (fun p => !(p.1 == "type")) =
      e.filter (fun p => !(p.1 == "type")) := by
  rw [normalizeEntry_cons hty hnd, List.filter_cons]
  simp only [beq_self_eq_true, Bool.not_true, Bool.false_eq_true, if_false]
  rw [List.filter_eq_self]
  intro p hp
  exact (List.mem_filter.mp hp).2

theorem elemD_normalize {e : Dict} {ty : String} (hty : aget? e "type" = some ty)
    (hnd : (akeys e).Nodup) : elemD (normalizeEntry e) = elemD e := by
  rw [elemD, elemD, filter_type_of_normalize hty hnd]
  have : tyD (normalizeEntry e) = tyD e := by
    rw [normalizeEntry_cons hty hnd, tyD, tyD, hty]
    simp [aget?]
  rw [this]

theorem aget?_normalize_ne_type {e : Dict} {ty k : String} (hty : aget? e "type" = some ty)
    (hnd : (akeys e).Nodup) (hk : k ≠ "type") :
    aget? (normalizeEntry e) k = aget? e k := by
  rw [normalizeEntry_cons hty hnd, aget?_cons, if_neg (Ne.symm hk)]
  exact aget?_filter_all (fun p hp => by simp [hp, hk])

theorem addon_sort_key_normalize {e : Dict} {ty : String} (hty : aget? e "type" = some ty)
    (hnd : (akeys e).Nodup) :
    addon_sort_key (normalizeEntry e) = addon_sort_key e := by
  rw [addon_sort_key, addon_sort_key]
  have h1 : aget? (normalizeEntry e) "type" = some ty := by
    rw [normalizeEntry_cons hty hnd, aget?_cons]
    simp
  have h2 : aget? (normalizeEntry e) "id" = aget? e "id" :=
    aget?_normalize_ne_type hty hnd (by decide)
  rw [h1, hty, h2]

/-- Re-building a freshly built entry from its own reloaded form reproduces
it exactly: the reloaded dictionary carries the same `installed` and
`installed-revision` bindings, and the overlay writes them onto the same
fresh defaults. -/
theorem build_rebuild {a inst e : Dict}
    (hb : build_addon_metadata a inst = some e)
    (hinstnd : (akeys inst).Nodup) :
    build_addon_metadata a (normalizeEntry e) = some e ∧
    (akeys e).Nodup ∧
    (∃ i ty, aget? a "id" = some i ∧ aget? e "id" = some i ∧
      aget? a "type" = some ty ∧ aget? e "type" = some ty) := by
  obtain ⟨nm, i, ds, st, dt, sz, rv, ty, h1, h2, h3, h4, h5, h6, h7, h8, he⟩ :=
    build_addon_metadata_inv hb
  subst he
  have hbasend : (akeys (addonMetadataBase nm i ds st dt sz rv
      (lastSlashComponent (agetD a "image" "")) ty)).Nodup := by
    show (["name", "id", "designer", "status", "date", "installed", "installed-revision",
      "size", "icon-revision", "icon-name", "type"] : List String).Nodup
    decide
  have hb1 : aget? (addonMetadataBase nm i ds st dt sz rv
      (lastSlashComponent (agetD a "image" "")) ty) "installed" = some "false" := rfl
  have hb2 : aget? (addonMetadataBase nm i ds st dt sz rv
      (lastSlashComponent (agetD a "image" "")) ty) "installed-revision" = some "0" := rfl
  have hbty : aget? (addonMetadataBase nm i ds st dt sz rv
      (lastSlashComponent (agetD a "image" "")) ty) "type" = some ty := rfl
  have hbid : aget? (addonMetadataBase nm i ds st dt sz rv
      (lastSlashComponent (agetD a "image" "")) ty) "id" = some i := rfl
  set base := addonMetadataBase nm i ds st dt sz rv
      (lastSlashComponent (agetD a "image" "")) ty with hbase
  set fl := inst.filter isOverlayKey with hfl
  have hflnd : (akeys fl).Nodup := akeys_filter_nodup hinstnd
  have hflov : ∀ p ∈ fl, isOverlayKey p = true := fun p hp => (List.mem_filter.mp hp).2
  have hnf := aupdate_overlay_eq hflnd hflov hb1 hb2
  have hend : (akeys (aupdate base fl)).Nodup := by
    rw [hnf]
    rw [akeys_aset_mem _ (mem_akeys_of_aget? (show aget? (aset base "installed"
        (agetD fl "installed" "false")) "installed-revision" = some "0" from by
      rw [aget?_aset_ne _ _ (by decide)]; exact hb2))]
    rw [akeys_aset_mem _ (mem_akeys_of_aget? hb1)]
    exact hbasend
  have hety : aget? (aupdate base fl) "type" = some ty := by
    rw [hnf, aget?_aset_ne _ _ (by decide), aget?_aset_ne _ _ (by decide)]
    exact hbty
  have heid : aget? (aupdate base fl) "id" = some i := by
    rw [hnf, aget?_aset_ne _ _ (by decide), aget?_aset_ne _ _ (by decide)]
    exact hbid
  have heinst : aget? (aupdate base fl) "installed" = some (agetD fl "installed" "false") := by
    rw [hnf, aget?_aset_ne _ _ (by decide), aget?_aset_self]
  have herev : aget? (aupdate base fl) "installed-revision" =
      some (agetD fl "installed-revision" "0") := by
    rw [hnf, aget?_aset_self]
  refine ⟨?_, hend, ⟨i, ty, h2, heid, h8, hety⟩⟩
  rw [build_addon_metadata_some a (normalizeEntry (aupdate base fl)) nm i ds st dt sz rv ty
    h1 h2 h3 h4 h5 h6 h7 h8]
  refine congrArg some ?_
  have hnormnd : (akeys (normalizeEntry (aupdate base fl))).Nodup := by
    rw [normalizeEntry_cons hety hend]
    simp only [akeys, List.map_cons, List.nodup_cons]
    constructor
    · intro hm
      rw [List.mem_map] at hm
      obtain ⟨p, hp, hpk⟩ := hm
      rw [List.mem_filter] at hp
      have hp2 := hp.2
      rw [hpk] at hp2
      simp at hp2
    · exact akeys_filter_nodup hend
  have hfl2ov : ∀ p ∈ (normalizeEntry (aupdate base fl)).filter isOverlayKey,
      isOverlayKey p = true := fun p hp => (List.mem_filter.mp hp).2
  have hnf2 := aupdate_overlay_eq (akeys_filter_nodup hnormnd) hfl2ov hb1 hb2
  rw [hnf2]
  have hlook1 : aget? ((normalizeEntry (aupdate base fl)).filter isOverlayKey) "installed" =
      some (agetD fl "installed" "false") := by
    rw [aget?_filter_all (fun p hp => by simp [isOverlayKey, hp]),
      aget?_normalize_ne_type hety hend (by decide)]
    exact heinst
  have hlook2 : aget? ((normalizeEntry (aupdate base fl)).filter isOverlayKey)
      "installed-revision" = some (agetD fl "installed-revision" "0") := by
    rw [aget?_filter_all (fun p hp => by simp [isOverlayKey, hp]),
      aget?_normalize_ne_type hety hend (by decide)]
    exact herev
  rw [show agetD ((normalizeEntry (aupdate base fl)).filter isOverlayKey) "installed" "false" =
      agetD fl "installed" "false" from by rw [agetD, hlook1]; rfl]
  rw [show agetD ((normalizeEntry (aupdate base fl)).filter isOverlayKey) "installed-revision"
      "0" = agetD fl "installed-revision" "0" from by rw [agetD, hlook2]; rfl]
  exact hnf.symm

theorem installed_fold_char (g : XElem → String) :
    ∀ (children : List XElem) (m : Assoc Dict),
    (∀ x ∈ children, aget? x.attrs "id" = some (g x)) →
    (∀ x ∈ children, g x ∉ akeys m) → (children.map g).Nodup →
    children.foldl (fun m x =>
      match aget? x.attrs "id" with
      | none => m
      | some i => aset m i (aupdate [("type", x.tag)] x.attrs)) m =
      m ++ children.map (fun x => (g x, aupdate [("type", x.tag)] x.attrs)) := by
  intro children
  induction children with
  | nil => intro m _ _ _; simp
  | cons x rest ih =>
    intro m hid hfresh hnd
    simp only [List.foldl_cons]
    rw [hid x (by simp)]
    simp only []
    rw [aset_append_of_not_mem _ (hfresh x (by simp))]
    simp only [List.map_cons, List.nodup_cons] at hnd
    rw [ih (m ++ [(g x, aupdate [("type", x.tag)] x.attrs)])
      (fun y hy => hid y (by simp [hy]))
      ?_ hnd.2]
    · simp
    · intro y hy
      rw [akeys, List.map_append]
      simp only [List.mem_append, not_or]
      refine ⟨hfresh y (by simp [hy]), ?_⟩
      simp only [List.map_cons, List.map_nil, List.mem_singleton]
      intro he
      exact hnd.1 (he ▸ List.mem_map_of_mem g hy)

theorem get_installed_addons_doc_eq (rt : String) (children : List XElem) (g : XElem → String)
    (hid : ∀ x ∈ children, aget? x.attrs "id" = some (g x))
    (hnd : (children.map g).Nodup) :
    get_installed_addons_doc ⟨rt, [("xmlns", STKNS)], children⟩ =
      children.map (fun x => (g x, aupdate [("type", x.tag)] x.attrs)) := by
  rw [get_installed_addons_doc]
  simp only [List.foldl_cons]
  rw [show aget? ([("xmlns", STKNS)] : Dict) "id" = none from rfl]
  simp only []
  rw [installed_fold_char g children [] hid (by simp [akeys]) hnd]
  rfl

instance : IsTotal Dict (fun e1 e2 => sortKeyD e1 ≤ sortKeyD e2) :=
  ⟨fun _ _ => le_total _ _⟩

instance : IsTrans Dict (fun e1 e2 => sortKeyD e1 ≤ sortKeyD e2) :=
  ⟨fun _ _ _ h1 h2 => le_trans h1 h2⟩

instance : IsAntisymm (String × XElem) (fun p q => p.1 < q.1) :=
  ⟨fun _ _ h1 h2 => absurd (lt_trans h1 h2) (lt_irrefl _)⟩

/-- Sorting the entry list makes its serialized form independent of the
pre-sort order whenever the sort keys are distinct — this is what makes the
output deterministic even though Python iterates the id set in arbitrary
order. -/
theorem sortEntries_map_eq {l1 l2 : List Dict} (f : Dict → String × XElem)
    (hf : ∀ e, (f e).1 = sortKeyD e)
    (hperm : (l2.map f).Perm (l1.map f))
    (hnd : (l1.map sortKeyD).Nodup) :
    (sortEntries l2).map f = (sortEntries l1).map f := by
  have hp2 : ((sortEntries l2).map f).Perm (l2.map f) :=
    (List.perm_insertionSort _ l2).map f
  have hp1 : ((sortEntries l1).map f).Perm (l1.map f) :=
    (List.perm_insertionSort _ l1).map f
  have hperm2 : ((sortEntries l2).map f).Perm ((sortEntries l1).map f) :=
    hp2.trans (hperm.trans hp1.symm)
  have hkey : ∀ (l : List Dict), (l.map f).map (·.1) = l.map sortKeyD := by
    intro l
    rw [List.map_map]
    exact List.map_congr_left (fun e _ => hf e)
  have hstrict : ∀ (l : List Dict), ((l.map sortKeyD).Nodup) →
      List.Pairwise (fun p q : String × XElem => p.1 < q.1) ((sortEntries l).map f) := by
    intro l hl
    have hs : List.Sorted (fun e1 e2 : Dict => sortKeyD e1 ≤ sortKeyD e2) (sortEntries l) :=
      List.sorted_insertionSort _ l
    have hle : List.Pairwise (fun p q : String × XElem => p.1 ≤ q.1) ((sortEntries l).map f) :=
      List.Pairwise.map f (fun a b hab => by rw [hf a, hf b]; exact hab) hs
    have hndk : (((sortEntries l).map f).map (·.1)).Nodup := by
      rw [hkey]
      exact (((List.perm_insertionSort
        (fun e1 e2 : Dict => sortKeyD e1 ≤ sortKeyD e2) l).map sortKeyD).nodup_iff).mpr hl
    have hndk2 : List.Pairwise (fun p q : String × XElem => p.1 ≠ q.1)
        ((sortEntries l).map f) := List.pairwise_map.mp hndk
    have := hle.and hndk2
    exact this.imp (fun hab => lt_of_le_of_ne hab.1 hab.2)
  have hnd2 : (l2.map sortKeyD).Nodup := by
    have : (l2.map f).map (·.1) = (l1.map f).map (·.1) →
        (l2.map sortKeyD).Perm (l1.map sortKeyD) := by
      intro _
      rw [← hkey l1, ← hkey l2]
      exact hperm.map (·.1)
    rw [← hkey l1, ← hkey l2] at *
    exact ((hperm.map (·.1)).nodup_iff).mpr (by rw [hkey l1]; rwa [hkey l1] at hnd)
  exact List.eq_of_perm_of_sorted hperm2 (hstrict l2 hnd2) (hstrict l1 hnd)

theorem addon_sort_key_inv {e : Dict} {key : String} (h : addon_sort_key e = some key) :
    ∃ ty pr i2, aget? e "type" = some ty ∧
      ((ty = "kart" ∧ pr = "aaa") ∨ (ty = "track" ∧ pr = "aab") ∨
       (ty = "arena" ∧ pr = "aac")) ∧
      aget? e "id" = some i2 ∧ key = pr ++ i2 ∧ pr.length = 3 := by
  cases hty : aget? e "type" with
  | none => simp [addon_sort_key, hty] at h
  | some ty =>
    by_cases h1 : ty = "kart"
    · subst h1
      cases hid : aget? e "id" with
      | none => simp [addon_sort_key, hty, hid] at h
      | some i2 =>
        simp [addon_sort_key, hty, hid] at h
        exact ⟨"kart", "aaa", i2, rfl, Or.inl ⟨rfl, rfl⟩, rfl, h.symm, rfl⟩
    · by_cases h2 : ty = "track"
      · subst h2
        cases hid : aget? e "id" with
        | none => simp [addon_sort_key, hty, hid] at h
        | some i2 =>
          simp [addon_sort_key, hty, hid, h1] at h
          exact ⟨"track", "aab", i2, rfl, Or.inr (Or.inl ⟨rfl, rfl⟩), rfl, h.symm, rfl⟩
      · by_cases h3 : ty = "arena"
        · subst h3
          cases hid : aget? e "id" with
          | none => simp [addon_sort_key, hty, hid] at h
          | some i2 =>
            simp [addon_sort_key, hty, hid, h1, h2] at h
            exact ⟨"arena", "aac", i2, rfl, Or.inr (Or.inr ⟨rfl, rfl⟩), rfl, h.symm, rfl⟩
        · simp [addon_sort_key, hty, h1, h2, h3] at h

theorem string_append_cancel {p1 p2 s1 s2 : String} (h : p1 ++ s1 = p2 ++ s2)
    (hl : p1.length = p2.length) : s1 = s2 := by
  have hd : (p1 ++ s1).data = (p2 ++ s2).data := by rw [h]
  rw [String.data_append, String.data_append] at hd
  have hld : p1.data.length = p2.data.length := hl
  obtain ⟨e1, e2⟩ := List.append_inj hd hld
  exact String.ext e2

theorem union_ids_nodup {cat led : Assoc Dict} (hcatnd : (akeys cat).Nodup)
    (hlednd : (akeys led).Nodup) : (union_ids cat led).Nodup := by
  rw [union_ids]
  apply List.Nodup.append hcatnd (List.Nodup.filter _ hlednd)
  intro i hic hif
  rw [List.mem_filter] at hif
  have := aget?_isSome_of_mem_akeys hic
  rw [this] at hif
  simp at hif

/-! ## Claim C9: persist → load → persist is stable -/

/-- The entry `write_installed_addons` builds for one id (total form of
`build_entry_for`). -/
def built_entry (cat led : Assoc Dict) (i : String) : Dict :=
  (build_entry_for cat led i).getD []

/-- The entry the second persist builds for one id after a reload: catalog
ids are rebuilt to the same dictionary, orphans come back in their reloaded
`{'type': tag, **attrs}` form. -/
def relisted_entry (cat led : Assoc Dict) (i : String) : Dict :=
  if (aget? cat i).isSome then built_entry cat led i
  else normalizeEntry (built_entry cat led i)

/-- When the first persist succeeds, its entry list is `built_entry` mapped
over the id union, and each built entry carries its id, has distinct
attribute keys, has a serializable type, and — on the catalog branch — is
reproduced exactly by re-building from its own reloaded form. -/
theorem built_entry_spec (cat led : Assoc Dict) (l0 : List Dict) (ks : List String)
    (hcatid : ∀ p ∈ cat, aget? p.2 "id" = some p.1)
    (hledid : ∀ p ∈ led, aget? p.2 "id" = some p.1)
    (hledwf : ∀ p ∈ led, (akeys p.2).Nodup)
    (hm : (union_ids cat led).mapM (build_entry_for cat led) = some l0)
    (hk : l0.mapM addon_sort_key = some ks) :
    l0 = (union_ids cat led).map (built_entry cat led) ∧
    (∀ i ∈ union_ids cat led,
      build_entry_for cat led i = some (built_entry cat led i) ∧
      aget? (built_entry cat led i) "id" = some i ∧
      (akeys (built_entry cat led i)).Nodup ∧
      (∃ ty, aget? (built_entry cat led i) "type" = some ty) ∧
      (∀ a, aget? cat i = some a →
        build_addon_metadata a (normalizeEntry (built_entry cat led i)) =
          some (built_entry cat led i))) := by
  have hfb : ∀ i ∈ union_ids cat led,
      build_entry_for cat led i = some (built_entry cat led i) := by
    intro i hi
    obtain ⟨e, he⟩ := forall_of_mapM_eq_some _ _ _ hm i hi
    rw [built_entry, he]
    rfl
  have hl0 : l0 = (union_ids cat led).map (built_entry cat led) := by
    have := mapM_eq_some_of_forall (build_entry_for cat led) (built_entry cat led) _ hfb
    rw [hm] at this
    exact Option.some_inj.mp this
  refine ⟨hl0, ?_⟩
  intro i hi
  have hfi := hfb i hi
  have hmem : built_entry cat led i ∈ l0 := by
    rw [hl0]
    exact List.mem_map_of_mem _ hi
  obtain ⟨key, hkey⟩ := forall_of_mapM_eq_some _ _ _ hk _ hmem
  obtain ⟨ty, pr, i2, hty, _, _, _, _⟩ := addon_sort_key_inv hkey
  cases hcat : aget? cat i with
  | none =>
    rw [build_entry_for, hcat] at hfi
    have hfi2 : aget? led i = some (built_entry cat led i) := hfi
    have hmemled := aget?_some_mem hfi2
    refine ⟨hfb i hi, hledid _ hmemled, hledwf _ hmemled, ⟨ty, hty⟩, ?_⟩
    intro a ha
    exact Option.noConfusion ha
  | some a =>
    rw [build_entry_for, hcat] at hfi
    have hfi2 : build_addon_metadata a (agetD led i []) =
        some (built_entry cat led i) := hfi
    have hinstnd : (akeys (agetD led i [])).Nodup := by
      rw [agetD]
      cases hled : aget? led i with
      | none => exact List.nodup_nil
      | some e0 => exact hledwf _ (aget?_some_mem hled)
    obtain ⟨hrb, hend, ⟨i2, ty2, hai, hei, _, _⟩⟩ := build_rebuild hfi2 hinstnd
    have hca : aget? a "id" = some i := hcatid _ (aget?_some_mem hcat)
    rw [hca] at hai
    rw [← Option.some_inj.mp hai] at hei
    refine ⟨hfb i hi, hei, hend, ⟨ty, hty⟩, ?_⟩
    intro a2 ha2
    obtain rfl := Option.some_inj.mp ha2
    exact hrb

/-- Claim C9: persist followed by load is stable.  For a catalog and ledger
keyed by their entries' `id` attributes (with distinct keys and
well-formed attribute lists), when `write_installed_addons(...,
warn=False)` followed by `_write_addons_xml` succeeds and produces a
document, parsing that document back with `get_installed_addons` and
persisting the reloaded ledger again (validation off) produces the same
document, and hence a byte-identical ledger file. -/
theorem c9_persist_load_persist_stable
    (cat led : Assoc Dict) (doc : XDoc)
    (hcatnd : (akeys cat).Nodup) (hlednd : (akeys led).Nodup)
    (hcatid : ∀ p ∈ cat, aget? p.2 "id" = some p.1)
    (hledid : ∀ p ∈ led, aget? p.2 "id" = some p.1)
    (hledwf : ∀ p ∈ led, (akeys p.2).Nodup)
    (h : persist_doc cat led = some doc) :
    persist_doc cat (get_installed_addons_doc doc) = some doc ∧
    persist_bytes cat (get_installed_addons_doc doc) = persist_bytes cat led := by
  have hper1 := h
  cases hl : write_installed_addons_list cat led with
  | none =>
    simp only [persist_doc, Option.bind_eq_bind, hl, Option.none_bind] at h
    exact Option.noConfusion h
  | some l =>
  simp only [persist_doc, Option.bind_eq_bind, hl, Option.some_bind] at h
  cases hm : (union_ids cat led).mapM (build_entry_for cat led) with
  | none =>
    simp only [write_installed_addons_list, Option.bind_eq_bind, hm,
      Option.none_bind] at hl
    exact Option.noConfusion hl
  | some l0 =>
  cases hk : l0.mapM addon_sort_key with
  | none =>
    simp only [write_installed_addons_list, Option.bind_eq_bind, hm, Option.some_bind,
      hk, Option.none_bind] at hl
    exact Option.noConfusion hl
  | some ks =>
  have hlval : l = sortEntries l0 := by
    simp only [write_installed_addons_list, Option.bind_eq_bind, hm, Option.some_bind,
      hk, Option.pure_def, Option.some_inj] at hl
    exact hl.symm
  subst hlval
  cases hc : (sortEntries l0).mapM elem_of_entry with
  | none =>
    simp only [write_addons_xml_doc, Option.bind_eq_bind, hc, Option.none_bind] at h
    exact Option.noConfusion h
  | some children =>
  have hdoc : doc = ⟨"addons", [("xmlns", STKNS)], children⟩ := by
    simp only [write_addons_xml_doc, Option.bind_eq_bind, hc, Option.some_bind,
      Option.pure_def, Option.some_inj] at h
    exact h.symm
  obtain ⟨hl0, hfacts⟩ := built_entry_spec cat led l0 ks hcatid hledid hledwf hm hk
  have hund : (union_ids cat led).Nodup := union_ids_nodup hcatnd hlednd
  have hsk : ∀ e ∈ l0, ∃ key, addon_sort_key e = some key := fun e he =>
    forall_of_mapM_eq_some _ _ _ hk e he
  have hmem_sorted : ∀ e : Dict, e ∈ sortEntries l0 ↔ e ∈ l0 := fun e =>
    (List.perm_insertionSort _ l0).mem_iff
  have hattr_id : ∀ i ∈ union_ids cat led,
      aget? (elemD (built_entry cat led i)).attrs "id" = some i := by
    intro i hi
    show aget? ((built_entry cat led i).filter (fun p => !(p.1 == "type"))) "id" = some i
    have hP : ∀ p : String × String, p.1 = "id" → (!(p.1 == "type")) = true := by
      intro p hp
      rw [hp]
      rfl
    rw [aget?_filter_all hP]
    exact (hfacts i hi).2.1
  have hval : ∀ i ∈ union_ids cat led,
      (aget? (elemD (built_entry cat led i)).attrs "id").getD "" = i := by
    intro i hi
    rw [hattr_id i hi]
    rfl
  have htype_sorted : ∀ e ∈ sortEntries l0, ∃ ty, aget? e "type" = some ty := by
    intro e he
    have he0 : e ∈ l0 := (hmem_sorted e).mp he
    rw [hl0] at he0
    obtain ⟨i, hi, rfl⟩ := List.mem_map.mp he0
    exact (hfacts i hi).2.2.2.1
  have hchild : children = (sortEntries l0).map elemD := by
    have h2 : (sortEntries l0).mapM elem_of_entry =
        some ((sortEntries l0).map elemD) := by
      refine mapM_eq_some_of_forall _ _ _ (fun e he => ?_)
      obtain ⟨ty, hty⟩ := htype_sorted e he
      exact elem_of_entry_eq_some hty
    rw [hc] at h2
    exact Option.some_inj.mp h2
  have hmem_built : ∀ e ∈ sortEntries l0,
      ∃ i ∈ union_ids cat led, built_entry cat led i = e := by
    intro e he
    have he0 : e ∈ l0 := (hmem_sorted e).mp he
    rw [hl0] at he0
    obtain ⟨i, hi, hie⟩ := List.mem_map.mp he0
    exact ⟨i, hi, hie⟩
  have hmapg : children.map (fun x => (aget? x.attrs "id").getD "") =
      (sortEntries l0).map (fun e => (aget? (elemD e).attrs "id").getD "") := by
    rw [hchild, List.map_map]
    rfl
  have hmap_union : l0.map (fun e => (aget? (elemD e).attrs "id").getD "") =
      union_ids cat led := by
    rw [hl0, List.map_map]
    have hstep : (union_ids cat led).map
        ((fun e => (aget? (elemD e).attrs "id").getD "") ∘ built_entry cat led) =
        (union_ids cat led).map id :=
      List.map_congr_left (fun i hi => hval i hi)
    rw [hstep, List.map_id]
  have hperm_keys : (children.map (fun x => (aget? x.attrs "id").getD "")).Perm
      (union_ids cat led) := by
    rw [hmapg]
    have hp := (List.perm_insertionSort
      (fun e1 e2 => sortKeyD e1 ≤ sortKeyD e2) l0).map
      (fun e => (aget? (elemD e).attrs "id").getD "")
    rw [hmap_union] at hp
    exact hp
  have hgnd : (children.map (fun x => (aget? x.attrs "id").getD "")).Nodup :=
    hperm_keys.nodup_iff.mpr hund
  have hgx : ∀ x ∈ children, aget? x.attrs "id" =
      some ((aget? x.attrs "id").getD "") := by
    intro x hx
    rw [hchild] at hx
    obtain ⟨e, he, rfl⟩ := List.mem_map.mp hx
    obtain ⟨i, hi, rfl⟩ := hmem_built e he
    rw [hattr_id i hi]
    rfl
  have hloaded : get_installed_addons_doc doc =
      (sortEntries l0).map (fun e =>
        ((aget? (elemD e).attrs "id").getD "", normalizeEntry e)) := by
    rw [hdoc]
    rw [get_installed_addons_doc_eq "addons" children
      (fun x => (aget? x.attrs "id").getD "") hgx hgnd]
    rw [hchild, List.map_map]
    rfl
  have hak : akeys (get_installed_addons_doc doc) =
      (sortEntries l0).map (fun e => (aget? (elemD e).attrs "id").getD "") := by
    rw [hloaded, akeys, List.map_map]
    rfl
  have hldnd : (akeys (get_installed_addons_doc doc)).Nodup := by
    rw [hak, ← hmapg]
    exact hgnd
  have hload_get : ∀ i ∈ union_ids cat led,
      aget? (get_installed_addons_doc doc) i =
        some (normalizeEntry (built_entry cat led i)) := by
    intro i hi
    have hmem2 : ((aget? (elemD (built_entry cat led i)).attrs "id").getD "",
        normalizeEntry (built_entry cat led i)) ∈ get_installed_addons_doc doc := by
      rw [hloaded]
      exact List.mem_map_of_mem _
        ((hmem_sorted _).mpr (by rw [hl0]; exact List.mem_map_of_mem _ hi))
    have h3 : aget? (get_installed_addons_doc doc)
        ((aget? (elemD (built_entry cat led i)).attrs "id").getD "") =
        some (normalizeEntry (built_entry cat led i)) :=
      aget?_of_mem_nodup hldnd hmem2
    rw [hval i hi] at h3
    exact h3
  have hsub2 : ∀ i ∈ union_ids cat (get_installed_addons_doc doc),
      i ∈ union_ids cat led := by
    intro i hi
    rw [union_ids] at hi
    rcases List.mem_append.mp hi with hic | hif
    · rw [union_ids]
      exact List.mem_append.mpr (Or.inl hic)
    · have hmem3 := (List.mem_filter.mp hif).1
      rw [hak] at hmem3
      exact hperm_keys.mem_iff.mp (by rw [hmapg]; exact hmem3)
  have hperm2 : (union_ids cat (get_installed_addons_doc doc)).Perm
      (union_ids cat led) := by
    rw [union_ids, union_ids]
    refine List.Perm.append (List.Perm.refl _) ?_
    have hp1 : ((akeys (get_installed_addons_doc doc)).filter
        (fun i => !(aget? cat i).isSome)).Perm
        ((union_ids cat led).filter (fun i => !(aget? cat i).isSome)) := by
      refine List.Perm.filter _ ?_
      rw [hak, ← hmapg]
      exact hperm_keys
    rw [union_ids, List.filter_append] at hp1
    have hcat_filter : (akeys cat).filter (fun i => !(aget? cat i).isSome) = [] := by
      rw [List.filter_eq_nil_iff]
      intro i hi
      simp [aget?_isSome_of_mem_akeys hi]
    have hled_filter : (((akeys led).filter (fun i => !(aget? cat i).isSome)).filter
        (fun i => !(aget? cat i).isSome)) =
        (akeys led).filter (fun i => !(aget? cat i).isSome) := by
      rw [List.filter_eq_self]
      intro a ha
      exact (List.mem_filter.mp ha).2
    rw [hcat_filter, hled_filter, List.nil_append] at hp1
    exact hp1
  have hbuild2 : ∀ i ∈ union_ids cat (get_installed_addons_doc doc),
      build_entry_for cat (get_installed_addons_doc doc) i =
        some (relisted_entry cat led i) := by
    intro i hi
    have hi1 := hsub2 i hi
    rw [build_entry_for]
    cases hcat2 : aget? cat i with
    | none =>
      show aget? (get_installed_addons_doc doc) i = some (relisted_entry cat led i)
      rw [hload_get i hi1]
      simp [relisted_entry, hcat2]
    | some a =>
      show build_addon_metadata a (agetD (get_installed_addons_doc doc) i []) =
        some (relisted_entry cat led i)
      have hag : agetD (get_installed_addons_doc doc) i [] =
          normalizeEntry (built_entry cat led i) := by
        rw [agetD, hload_get i hi1]
        rfl
      rw [hag, (hfacts i hi1).2.2.2.2 a hcat2]
      simp [relisted_entry, hcat2]
  have hm2 : (union_ids cat (get_installed_addons_doc doc)).mapM
      (build_entry_for cat (get_installed_addons_doc doc)) =
      some ((union_ids cat (get_installed_addons_doc doc)).map
        (relisted_entry cat led)) :=
    mapM_eq_some_of_forall _ _ _ hbuild2
  have hkeyeq : ∀ i ∈ union_ids cat led,
      addon_sort_key (relisted_entry cat led i) =
        addon_sort_key (built_entry cat led i) ∧
      elemD (relisted_entry cat led i) = elemD (built_entry cat led i) := by
    intro i hi
    obtain ⟨ty, hty⟩ := (hfacts i hi).2.2.2.1
    have hend := (hfacts i hi).2.2.1
    rw [relisted_entry]
    cases hcat2 : aget? cat i with
    | none =>
      rw [if_neg (by simp)]
      exact ⟨addon_sort_key_normalize hty hend, elemD_normalize hty hend⟩
    | some a =>
      rw [if_pos (by simp)]
      exact ⟨rfl, rfl⟩
  have hsk2 : ∀ e ∈ (union_ids cat (get_installed_addons_doc doc)).map
      (relisted_entry cat led), addon_sort_key e = some (sortKeyD e) := by
    intro e he
    obtain ⟨i, hi, rfl⟩ := List.mem_map.mp he
    have hi1 := hsub2 i hi
    have hmem4 : built_entry cat led i ∈ l0 := by
      rw [hl0]
      exact List.mem_map_of_mem _ hi1
    obtain ⟨key, hkey⟩ := hsk _ hmem4
    have hkr := (hkeyeq i hi1).1
    rw [hkey] at hkr
    rw [hkr, sortKeyD, hkr]
    rfl
  have hk2 : ((union_ids cat (get_installed_addons_doc doc)).map
      (relisted_entry cat led)).mapM addon_sort_key =
      some (((union_ids cat (get_installed_addons_doc doc)).map
        (relisted_entry cat led)).map sortKeyD) :=
    mapM_eq_some_of_forall _ _ _ hsk2
  have hwl2 : write_installed_addons_list cat (get_installed_addons_doc doc) =
      some (sortEntries ((union_ids cat (get_installed_addons_doc doc)).map
        (relisted_entry cat led))) := by
    simp only [write_installed_addons_list, hm2, Option.bind_eq_bind, Option.some_bind,
      hk2, Option.pure_def]
  have hnd0 : (l0.map sortKeyD).Nodup := by
    rw [hl0, List.map_map]
    refine List.Nodup.map_on ?_ hund
    intro i hi j hj heq
    have hmi : built_entry cat led i ∈ l0 := by
      rw [hl0]
      exact List.mem_map_of_mem _ hi
    have hmj : built_entry cat led j ∈ l0 := by
      rw [hl0]
      exact List.mem_map_of_mem _ hj
    obtain ⟨ki, hki⟩ := hsk _ hmi
    obtain ⟨kj, hkj⟩ := hsk _ hmj
    obtain ⟨tyi, pri, ii, htyi, _, hidi, hkeyi, hleni⟩ := addon_sort_key_inv hki
    obtain ⟨tyj, prj, jj, htyj, _, hidj, hkeyj, hlenj⟩ := addon_sort_key_inv hkj
    have hii : ii = i := by
      have h4 := (hfacts i hi).2.1
      rw [hidi] at h4
      exact Option.some_inj.mp h4
    have hjj : jj = j := by
      have h4 := (hfacts j hj).2.1
      rw [hidj] at h4
      exact Option.some_inj.mp h4
    have hsi : sortKeyD (built_entry cat led i) = pri ++ ii := by
      rw [sortKeyD, hki, hkeyi]
      rfl
    have hsj : sortKeyD (built_entry cat led j) = prj ++ jj := by
      rw [sortKeyD, hkj, hkeyj]
      rfl
    have heq2 : pri ++ ii = prj ++ jj := by
      have h5 : sortKeyD (built_entry cat led i) =
          sortKeyD (built_entry cat led j) := heq
      rw [hsi, hsj] at h5
      exact h5
    rw [← hii, ← hjj]
    exact string_append_cancel heq2 (by rw [hleni, hlenj])
  have hl2perm : (((union_ids cat (get_installed_addons_doc doc)).map
      (relisted_entry cat led)).map (fun e => (sortKeyD e, elemD e))).Perm
      (l0.map (fun e => (sortKeyD e, elemD e))) := by
    rw [List.map_map]
    have hcong : (union_ids cat (get_installed_addons_doc doc)).map
        ((fun e => (sortKeyD e, elemD e)) ∘ relisted_entry cat led) =
        (union_ids cat (get_installed_addons_doc doc)).map
        ((fun e => (sortKeyD e, elemD e)) ∘ built_entry cat led) := by
      refine List.map_congr_left (fun i hi => ?_)
      have hi1 := hsub2 i hi
      obtain ⟨hks, hes⟩ := hkeyeq i hi1
      show (sortKeyD (relisted_entry cat led i), elemD (relisted_entry cat led i)) =
        (sortKeyD (built_entry cat led i), elemD (built_entry cat led i))
      rw [hes, sortKeyD, sortKeyD, hks]
    rw [hcong, hl0, List.map_map]
    exact hperm2.map _
  have hsorted_eq : (sortEntries ((union_ids cat (get_installed_addons_doc doc)).map
      (relisted_entry cat led))).map (fun e => (sortKeyD e, elemD e)) =
      (sortEntries l0).map (fun e => (sortKeyD e, elemD e)) :=
    sortEntries_map_eq _ (fun e => rfl) hl2perm hnd0
  have hproj : ∀ l : List Dict,
      (l.map (fun e => (sortKeyD e, elemD e))).map Prod.snd = l.map elemD := by
    intro l
    rw [List.map_map]
    rfl
  have hmap_elem : (sortEntries ((union_ids cat (get_installed_addons_doc doc)).map
      (relisted_entry cat led))).map elemD = (sortEntries l0).map elemD := by
    rw [← hproj, ← hproj, hsorted_eq]
  have htype2 : ∀ e ∈ sortEntries ((union_ids cat (get_installed_addons_doc doc)).map
      (relisted_entry cat led)), ∃ ty, aget? e "type" = some ty := by
    intro e he
    have he2 : e ∈ (union_ids cat (get_installed_addons_doc doc)).map
        (relisted_entry cat led) :=
      (List.perm_insertionSort _ _).mem_iff.mp he
    obtain ⟨i, hi, rfl⟩ := List.mem_map.mp he2
    have hi1 := hsub2 i hi
    have hmem4 : built_entry cat led i ∈ l0 := by
      rw [hl0]
      exact List.mem_map_of_mem _ hi1
    obtain ⟨key, hkey0⟩ := hsk _ hmem4
    have hkey : addon_sort_key (relisted_entry cat led i) = some key := by
      rw [(hkeyeq i hi1).1, hkey0]
    obtain ⟨ty, pr, i2, hty, _, _, _, _⟩ := addon_sort_key_inv hkey
    exact ⟨ty, hty⟩
  have hc2 : (sortEntries ((union_ids cat (get_installed_addons_doc doc)).map
      (relisted_entry cat led))).mapM elem_of_entry =
      some ((sortEntries l0).map elemD) := by
    rw [← hmap_elem]
    refine mapM_eq_some_of_forall _ _ _ (fun e he => ?_)
    obtain ⟨ty, hty⟩ := htype2 e he
    exact elem_of_entry_eq_some hty
  have hpd2 : persist_doc cat (get_installed_addons_doc doc) = some doc := by
    simp only [persist_doc, Option.bind_eq_bind, hwl2, Option.some_bind]
    simp only [write_addons_xml_doc, Option.bind_eq_bind, hc2, Option.some_bind,
      Option.pure_def]
    rw [hdoc, hchild]
  refine ⟨hpd2, ?_⟩
  rw [persist_bytes, persist_bytes, hpd2, hper1]

def c9a : Dict :=
  [("name", "N"), ("id", "x"), ("designer", "D"), ("status", "0"),
   ("date", "1"), ("size", "2"), ("revision", "3"), ("type", "kart")]

def c9inst : Dict :=
  [("type", "kart"), ("id", "x"), ("installed", "true"), ("installed-revision", "5")]

def c9cat : Assoc Dict := [("x", c9a)]

def c9led : Assoc Dict := [("x", c9inst)]

def c9entry : Dict :=
  aupdate (addonMetadataBase "N" "x" "D" "0" "1" "2" "3"
    (lastSlashComponent (agetD c9a "image" "")) "kart") (c9inst.filter isOverlayKey)

def c9doc : XDoc :=
  ⟨"addons", [("xmlns", STKNS)], [⟨"kart", c9entry.filter (fun p => !(p.1 == "type"))⟩]⟩

/-- Closed instance of C9: persisting a one-entry catalog/ledger pair,
reloading the resulting document, and persisting again reproduces the same
document and the same bytes. -/
theorem c9_persist_load_persist_stable_witness :
    persist_doc c9cat c9led = some c9doc ∧
    persist_doc c9cat (get_installed_addons_doc c9doc) = some c9doc ∧
    persist_bytes c9cat (get_installed_addons_doc c9doc) = persist_bytes c9cat c9led :=
  ⟨rfl,
   (c9_persist_load_persist_stable c9cat c9led c9doc (by decide) (by decide)
     (by decide) (by decide) (by decide) rfl).1,
   (c9_persist_load_persist_stable c9cat c9led c9doc (by decide) (by decide)
     (by decide) (by decide) (by decide) rfl).2⟩
